import Mathlib

/-!
Verification of the question-generation service core: the largest-remainder
distribution allocator and question-sequence builder (src/utils/helpers.py),
the per-question-type response parsers (src/services/mcq_generator.py,
fib_generator.py, tf_generator.py), and the orchestrator
(src/services/question_generation_service.py).

Embedding conventions:
* Python floats are modelled as `ℚ` (the arithmetic in the source is ordinary
  field arithmetic on proportions and counts).
* Python strings are modelled as `List Char` (`PyStr`) inside the parsers,
  where the code manipulates text via `split`/`strip`/`in`; short label
  strings (question type, difficulty, cognitive level tags and dictionary
  keys) are modelled as Lean `String`.
* Python dicts are modelled as association lists kept in insertion order,
  with an explicit upsert mirroring `d[k] = v` semantics.
* `uuid.uuid4()` identifiers are external nondeterminism and are omitted from
  the parsed-question records; no claim mentions them.
* Logging is omitted.  I/O collaborators (the completion service and the
  content store) enter as explicit parameters carrying their outcome.
-/

namespace QGenSpec

abbrev PyStr := List Char

/-- Python `int(x)` truncates toward zero. -/
def pyInt (q : ℚ) : ℤ := if q < 0 then -⌊-q⌋ else ⌊q⌋

/-! ### DistributionAllocator: `calculate_question_distribution` (helpers.py lines 162-213) -/

/-- One value of the `fractional_distribution` dict built by
`calculate_question_distribution`: the dict key `f"{q_type}_{difficulty}_{blooms}"`
together with the stored fields `question_type`, `difficulty`, `blooms_level`,
`exact_count` and the floor `count`. -/
structure DistEntry where
  key : String
  question_type : String
  difficulty : String
  blooms_level : String
  exact_count : ℚ
  count : ℤ
  deriving DecidableEq, Repr

/-- The dict key `f"{q_type}_{difficulty}_{blooms}"`. -/
def distKey (q d b : String) : String := q ++ "_" ++ d ++ "_" ++ b

/-- Loop body of the triple loop: `exact_count = total_questions * q_ratio * d_ratio * b_ratio`,
`count = int(exact_count)`. -/
def mkFracEntry (total : ℤ) (q d b : String × ℚ) : DistEntry :=
  let exact : ℚ := (total : ℚ) * q.2 * d.2 * b.2
  { key := distKey q.1 d.1 b.1
    question_type := q.1
    difficulty := d.1
    blooms_level := b.1
    exact_count := exact
    count := pyInt exact }

/-- All combinations visited by the nested loops, question type outer,
difficulty middle, blooms inner. -/
def crossEntries (total : ℤ) (qd dd bd : List (String × ℚ)) : List DistEntry :=
  (qd.map (fun q => (dd.map (fun d => bd.map (fun b => mkFracEntry total q d b))).flatten)).flatten

/-- `fractional_distribution[key] = {...}`: replace in place if the key exists,
else append (Python dict insertion-order semantics). -/
def dictUpsert (l : List DistEntry) (e : DistEntry) : List DistEntry :=
  if l.any (fun x => x.key == e.key) then
    l.map (fun x => if x.key == e.key then e else x)
  else l ++ [e]

/-- The `fractional_distribution` dict after the triple loop. -/
def buildFractional (total : ℤ) (qd dd bd : List (String × ℚ)) : List DistEntry :=
  (crossEntries total qd dd bd).foldl dictUpsert []

/-- `current_total = sum(item['count'] ...)`. -/
def currentTotal (l : List DistEntry) : ℤ := (l.map (·.count)).sum

/-- `remainder = total_questions - current_total`. -/
def remainderOf (total : ℤ) (l : List DistEntry) : ℤ := total - currentTotal l

/-- The sort key is the fractional part `exact_count - count`. -/
def fracPart (e : DistEntry) : ℚ := e.exact_count - (e.count : ℚ)

/-- The comparison realised by `sorted(..., key=fractional part, reverse=True)`:
descending by fractional part.  Python sort is stable, as is `List.insertionSort`,
so the two agree including on ties. -/
def entLE (a b : DistEntry) : Prop := fracPart b ≤ fracPart a

instance : DecidableRel entLE := fun a b => inferInstanceAs (Decidable (_ ≤ _))

instance : IsTotal DistEntry entLE := ⟨fun a b => le_total (fracPart b) (fracPart a)⟩

instance : IsTrans DistEntry entLE := ⟨fun _ _ _ hab hbc => le_trans hbc hab⟩

/-- The entries in the order of `sorted_keys`. -/
def sortedEntries (l : List DistEntry) : List DistEntry := List.insertionSort entLE l

/-- The keys awarded an extra unit: the first `remainder` of `sorted_keys`
(the loop guard `if i < len(sorted_keys)` makes `take` exact, and
`range` of a negative number is empty). -/
def awardedKeys (total : ℤ) (l : List DistEntry) : List String :=
  ((sortedEntries l).map (·.key)).take (remainderOf total l).toNat

/-- `fractional_distribution[k]['count'] += 1` (dict keys are unique by construction). -/
def bumpKey (l : List DistEntry) (k : String) : List DistEntry :=
  l.map (fun e => if e.key == k then { e with count := e.count + 1 } else e)

/-- The remainder loop `for i in range(remainder): ... += 1`. -/
def applyRemainder (total : ℤ) (l : List DistEntry) : List DistEntry :=
  (awardedKeys total l).foldl bumpKey l

/-- One value of the final `distribution` dict (the `exact_count` field is dropped). -/
structure QEntry where
  key : String
  question_type : String
  difficulty : String
  blooms_level : String
  count : ℤ
  deriving DecidableEq, Repr

/-- `calculate_question_distribution` (helpers.py lines 162-213): floor counts,
largest-remainder redistribution, then drop zero-count combinations. -/
def calculate_question_distribution (total : ℤ) (qd dd bd : List (String × ℚ)) :
    List QEntry :=
  let fd := buildFractional total qd dd bd
  ((applyRemainder total fd).filter (fun e => decide (0 < e.count))).map
    (fun e =>
      { key := e.key
        question_type := e.question_type
        difficulty := e.difficulty
        blooms_level := e.blooms_level
        count := e.count })

/-! ### SequenceBuilder: `create_question_sequence` (helpers.py lines 215-228) -/

/-- `create_question_sequence`: repeat each combination's
`(difficulty, blooms_level)` pair `count` times, in dict iteration order
(`range` of a non-positive count is empty, hence `toNat`). -/
def create_question_sequence (question_breakdown : List QEntry) :
    List (String × String) :=
  question_breakdown.foldl
    (fun seq e => seq ++ List.replicate e.count.toNat (e.difficulty, e.blooms_level)) []

/-! ### Orchestrator grouping and per-type dispatch
(`question_generation_service.py` lines 159-223) -/

/-- `_group_by_question_type`: group the allocation by `question_type`,
groups created in first-seen order, entries appended in iteration order. -/
def groupByQuestionType (dist : List QEntry) : List (String × List QEntry) :=
  dist.foldl
    (fun groups e =>
      if groups.any (fun g => g.1 == e.question_type) then
        groups.map (fun g => if g.1 == e.question_type then (g.1, g.2 ++ [e]) else g)
      else groups ++ [(e.question_type, [e])]) []

/-- `total_for_type = sum(config['count'] for config in configs)`. -/
def totalForType (configs : List QEntry) : ℤ := (configs.map (·.count)).sum

/-- `if k not in d: d[k] = 0; d[k] += v` on a proportion dict. -/
def addWeight (l : List (String × ℚ)) (k : String) (v : ℚ) : List (String × ℚ) :=
  if l.any (fun x => x.1 == k) then
    l.map (fun x => if x.1 == k then (x.1, x.2 + v) else x)
  else l ++ [(k, v)]

/-- The rebuilt `difficulty_dist_for_type` and `blooms_dist_for_type` of
`_generate_questions_parallel` (lines 186-200): each config contributes
`count / total_for_type` to its difficulty and blooms labels.
(If `total_for_type` were 0 Python would raise `ZeroDivisionError`; the
orchestrator only reaches this with positive counts, and the theorems below
carry that fact.) -/
def typeMarginals (configs : List QEntry) : List (String × ℚ) × List (String × ℚ) :=
  let total := totalForType configs
  configs.foldl
    (fun dicts e =>
      (addWeight dicts.1 e.difficulty ((e.count : ℚ) / (total : ℚ)),
       addWeight dicts.2 e.blooms_level ((e.count : ℚ) / (total : ℚ))))
    ([], [])

/-- The `question_breakdown` a per-type generator actually computes
(e.g. `generate_mcqs`, mcq_generator.py lines 157-163): it re-runs
`calculate_question_distribution` on `num_questions = total_for_type`,
the one-type map `{question_type: 1.0}` and the rebuilt marginals. -/
def perTypeBreakdown (question_type : String) (configs : List QEntry) : List QEntry :=
  calculate_question_distribution (totalForType configs)
    [(question_type, 1)] (typeMarginals configs).1 (typeMarginals configs).2

/-- The `(difficulty, blooms_level)` sequence the type's parser pairs blocks
against: `create_question_sequence` of the recomputed per-type breakdown. -/
def perTypeSequence (question_type : String) (configs : List QEntry) :
    List (String × String) :=
  create_question_sequence (perTypeBreakdown question_type configs)

/-! ### Python string primitives used by the response parsers

`str.split(sep)`, `str.strip()`, `sub in s` and `str.split(sep, 1)` are
modelled on `List Char` by leftmost non-overlapping pattern search. -/

/-- `startsWith s pat`: `pat` is an initial segment of `s`. -/
def startsWith : PyStr → PyStr → Bool
  | _, [] => true
  | [], _ :: _ => false
  | c :: cs, p :: ps => c == p && startsWith cs ps

/-- Leftmost occurrence search: `some (pre, post)` with
`s = pre ++ pat ++ post` at the first occurrence of `pat`, else `none`. -/
def findSplit (pat : PyStr) : PyStr → Option (PyStr × PyStr)
  | [] => if startsWith [] pat then some ([], []) else none
  | c :: rest =>
    if startsWith (c :: rest) pat then some ([], (c :: rest).drop pat.length)
    else (findSplit pat rest).map (fun pr => (c :: pr.1, pr.2))

/-- Python `pat in s`. -/
def pyContains (s pat : PyStr) : Bool := (findSplit pat s).isSome

/-- Recursion core of Python `s.split(sep)` for non-empty `sep`: the text
remaining after a found separator is strictly shorter, so `s.length` is
enough fuel and the fuel only serves structural termination (the `0` case is
reached only with `s = []`, where no non-empty separator matches, giving the
same `[s]`). -/
def splitOnSubGo (p0 : Char) (ps : PyStr) : ℕ → PyStr → List PyStr
  | 0, s => [s]
  | fuel + 1, s =>
    match findSplit (p0 :: ps) s with
    | none => [s]
    | some pr => pr.1 :: splitOnSubGo p0 ps fuel pr.2

/-- Python `s.split(sep)` for non-empty `sep` (the head/tail split of the
pattern makes non-emptiness structural; Python raises on an empty separator). -/
def splitOnSub (p0 : Char) (ps : PyStr) (s : PyStr) : List PyStr :=
  splitOnSubGo p0 ps s.length s

/-- Python `s.split(sep)`; every separator used by the parsers is non-empty,
the `[]` branch is dead code. -/
def pySplit (s : PyStr) (sep : PyStr) : List PyStr :=
  match sep with
  | [] => [s]
  | p0 :: ps => splitOnSub p0 ps s

/-- Python `s.split(sep, 1)[1]` guarded by `sep in s`: the text after the
first occurrence of `sep`. -/
def afterFirst (s sep : PyStr) : PyStr :=
  match findSplit sep s with
  | none => s
  | some pr => pr.2

/-- Python `s.strip()`. -/
def trimL (s : PyStr) : PyStr :=
  ((s.dropWhile Char.isWhitespace).reverse.dropWhile Char.isWhitespace).reverse

/-- `l[i]` under a guard that guarantees the index exists. -/
def pyGet (l : List PyStr) (i : ℕ) : PyStr := l.getD i []

/-! ### Parser delimiters -/

def kwQuestion : PyStr := ['Q','U','E','S','T','I','O','N',':']
def kwStatement : PyStr := ['S','T','A','T','E','M','E','N','T',':']
def kwAnswer : PyStr := ['A','N','S','W','E','R',':']
def kwExpl : PyStr := ['E','X','P','L','A','N','A','T','I','O','N',':']
def kwD1 : PyStr := ['D','I','S','T','R','A','C','T','O','R','1',':']
def kwD2 : PyStr := ['D','I','S','T','R','A','C','T','O','R','2',':']
def kwD3 : PyStr := ['D','I','S','T','R','A','C','T','O','R','3',':']
def dotSpace : PyStr := ['.',' ']
def newline : PyStr := ['\n']

/-! ### MCQParser.parse_mcq_response (mcq_generator.py lines 25-93)

`question_id` (`uuid.uuid4()`) is external nondeterminism and omitted;
`MCQQuestion(**question_data)` is a pydantic model of plain `str`/`List[str]`
fields with no validators, so construction never fails and the
`try/except/continue` around it never drops a block. -/

structure MCQQuestion where
  question : PyStr
  answer : PyStr
  explanation : PyStr
  distractors : List PyStr
  difficulty : String
  blooms_level : String
  question_type : String
  deriving DecidableEq, Repr

/-- The per-block field extraction of `parse_mcq_response`, lines 39-77. -/
def mcqFromBlock (block : PyStr) (difficulty blooms : String) : MCQQuestion :=
  let b1 :=
    if pyContains block kwAnswer then kwAnswer ++ pyGet (pySplit block kwAnswer) 1
    else block
  let question :=
    if pyContains block kwAnswer then trimL (pyGet (pySplit block kwAnswer) 0)
    else []
  let answer :=
    if pyContains b1 kwAnswer && pyContains b1 kwExpl then
      trimL (pyGet (pySplit (pyGet (pySplit b1 kwAnswer) 1) kwExpl) 0)
    else []
  let b2 :=
    if pyContains b1 kwAnswer && pyContains b1 kwExpl then
      kwExpl ++ pyGet (pySplit b1 kwExpl) 1
    else b1
  let explanation :=
    if pyContains b2 kwExpl then
      let explText := pyGet (pySplit b2 kwExpl) 1
      if pyContains explText kwD1 then trimL (pyGet (pySplit explText kwD1) 0)
      else trimL explText
    else []
  let distractors :=
    (if pyContains b2 kwD1 then
      [if pyContains b2 kwD2 then trimL (pyGet (pySplit (pyGet (pySplit b2 kwD1) 1) kwD2) 0)
       else trimL (pyGet (pySplit b2 kwD1) 1)]
     else []) ++
    (if pyContains b2 kwD2 then
      [if pyContains b2 kwD3 then trimL (pyGet (pySplit (pyGet (pySplit b2 kwD2) 1) kwD3) 0)
       else trimL (pyGet (pySplit b2 kwD2) 1)]
     else []) ++
    (if pyContains b2 kwD3 then [trimL (pyGet (pySplit b2 kwD3) 1)] else [])
  { question := question
    answer := answer
    explanation := explanation
    distractors := distractors
    difficulty := difficulty
    blooms_level := blooms
    question_type := "mcq" }

/-- `[b.strip() for b in text.split(lead) if b.strip()]`. -/
def survivingBlocks (text lead : PyStr) : List PyStr :=
  ((pySplit text lead).filter (fun b => !(trimL b).isEmpty)).map trimL

/-- The block loop with its `question_index` counter: while the counter is
below the sequence length the block receives `question_sequence[question_index]`
and the counter advances; afterwards difficulty and blooms stay `""`. -/
def mcqLoop (seq : List (String × String)) : List PyStr → ℕ → List MCQQuestion
  | [], _ => []
  | b :: bs, qi =>
    if qi < seq.length then
      mcqFromBlock b (seq.getD qi ("", "")).1 (seq.getD qi ("", "")).2 ::
        mcqLoop seq bs (qi + 1)
    else mcqFromBlock b "" "" :: mcqLoop seq bs qi

/-- `parse_mcq_response`. -/
def parse_mcq_response (response_text : PyStr) (question_breakdown : List QEntry) :
    List MCQQuestion :=
  mcqLoop (create_question_sequence question_breakdown)
    (survivingBlocks response_text kwQuestion) 0

/-! ### FIBParser.parse_fib_response (fib_generator.py lines 25-90) -/

structure FillInBlankQuestion where
  question : PyStr
  answer : List PyStr
  explanation : PyStr
  difficulty : String
  blooms_level : String
  question_type : String
  deriving DecidableEq, Repr

/-- The answer-line loop of `parse_fib_response`, lines 59-67: each stripped
line that is non-empty and whose first character is a digit and which contains
`". "` anywhere is replaced by the text after the first `". "` (stripped);
every other non-empty stripped line is kept as is. -/
def processAnswerLines (answerLines : List PyStr) : List PyStr :=
  answerLines.foldl
    (fun acc rawLine =>
      match trimL rawLine with
      | [] => acc
      | c :: cs =>
        if c.isDigit && pyContains (c :: cs) dotSpace then
          acc ++ [trimL (afterFirst (c :: cs) dotSpace)]
        else acc ++ [c :: cs])
    []

/-- The per-block field extraction of `parse_fib_response`, lines 39-74. -/
def fibFromBlock (block : PyStr) (difficulty blooms : String) : FillInBlankQuestion :=
  let b1 :=
    if pyContains block kwAnswer then kwAnswer ++ pyGet (pySplit block kwAnswer) 1
    else block
  let question :=
    if pyContains block kwAnswer then trimL (pyGet (pySplit block kwAnswer) 0)
    else []
  let answer :=
    if pyContains b1 kwAnswer && pyContains b1 kwExpl then
      processAnswerLines
        (pySplit (trimL (pyGet (pySplit (pyGet (pySplit b1 kwAnswer) 1) kwExpl) 0)) newline)
    else []
  let b2 :=
    if pyContains b1 kwAnswer && pyContains b1 kwExpl then
      kwExpl ++ pyGet (pySplit b1 kwExpl) 1
    else b1
  let explanation :=
    if pyContains b2 kwExpl then trimL (pyGet (pySplit b2 kwExpl) 1)
    else []
  { question := question
    answer := answer
    explanation := explanation
    difficulty := difficulty
    blooms_level := blooms
    question_type := "fib" }

def fibLoop (seq : List (String × String)) : List PyStr → ℕ → List FillInBlankQuestion
  | [], _ => []
  | b :: bs, qi =>
    if qi < seq.length then
      fibFromBlock b (seq.getD qi ("", "")).1 (seq.getD qi ("", "")).2 ::
        fibLoop seq bs (qi + 1)
    else fibFromBlock b "" "" :: fibLoop seq bs qi

/-- `parse_fib_response`. -/
def parse_fib_response (response_text : PyStr) (question_breakdown : List QEntry) :
    List FillInBlankQuestion :=
  fibLoop (create_question_sequence question_breakdown)
    (survivingBlocks response_text kwQuestion) 0

/-! ### TFParser.parse_tf_response (tf_generator.py lines 25-80) -/

structure TrueFalseQuestion where
  statement : PyStr
  answer : PyStr
  explanation : PyStr
  difficulty : String
  blooms_level : String
  question_type : String
  deriving DecidableEq, Repr

/-- The per-block field extraction of `parse_tf_response`, lines 40-64
(the TF parser has an extra `elif` taking the answer when only `ANSWER:` is
present, and does not rewrite the block before explanation extraction). -/
def tfFromBlock (block : PyStr) (difficulty blooms : String) : TrueFalseQuestion :=
  let b1 :=
    if pyContains block kwAnswer then kwAnswer ++ pyGet (pySplit block kwAnswer) 1
    else block
  let statement :=
    if pyContains block kwAnswer then trimL (pyGet (pySplit block kwAnswer) 0)
    else []
  let answer :=
    if pyContains b1 kwAnswer && pyContains b1 kwExpl then
      trimL (pyGet (pySplit (pyGet (pySplit b1 kwAnswer) 1) kwExpl) 0)
    else if pyContains b1 kwAnswer then trimL (pyGet (pySplit b1 kwAnswer) 1)
    else []
  let explanation :=
    if pyContains b1 kwExpl then trimL (pyGet (pySplit b1 kwExpl) 1)
    else []
  { statement := statement
    answer := answer
    explanation := explanation
    difficulty := difficulty
    blooms_level := blooms
    question_type := "tf" }

def tfLoop (seq : List (String × String)) : List PyStr → ℕ → List TrueFalseQuestion
  | [], _ => []
  | b :: bs, qi =>
    if qi < seq.length then
      tfFromBlock b (seq.getD qi ("", "")).1 (seq.getD qi ("", "")).2 ::
        tfLoop seq bs (qi + 1)
    else tfFromBlock b "" "" :: tfLoop seq bs qi

/-- `parse_tf_response`. -/
def parse_tf_response (response_text : PyStr) (question_breakdown : List QEntry) :
    List TrueFalseQuestion :=
  tfLoop (create_question_sequence question_breakdown)
    (survivingBlocks response_text kwStatement) 0

/-! ### Filename derivation: `generate_filename` (helpers.py lines 230-261) -/

/-- Python `s.replace(old, new)` = join the split pieces with `new`. -/
def pyReplace (s old new : PyStr) : PyStr := List.intercalate new (pySplit s old)

/-- `learning_objectives: Union[str, List[str], None]`, with Python truthiness. -/
inductive LearnObj where
  | noObj : LearnObj
  | strObj (s : PyStr) : LearnObj
  | listObj (l : List PyStr) : LearnObj
  deriving DecidableEq, Repr

def LearnObj.truthy : LearnObj → Bool
  | .noObj => false
  | .strObj s => !s.isEmpty
  | .listObj l => !l.isEmpty

/-- `f"{label}{int(prop*100)}"` for one distribution item. -/
def distItemStr (p : String × ℚ) : PyStr := p.1.data ++ (toString (pyInt (p.2 * 100))).data

/-- `generate_filename`. -/
def generate_filename (chapter_name : PyStr) (dd bd : List (String × ℚ))
    (question_type : String) (lo : LearnObj) : PyStr :=
  let cleanName := pyReplace (pyReplace chapter_name [' '] ['_']) ['/'] ['_']
  let diffStr := List.intercalate ['_'] (dd.map distItemStr)
  let bloomsStr := List.intercalate ['_'] (bd.map distItemStr)
  let baseParts := [cleanName, diffStr, bloomsStr]
  let parts :=
    if lo.truthy then
      baseParts ++ [['l','o'] ++
        (match lo with
         | .noObj => []
         | .strObj s => s
         | .listObj l => List.intercalate ['_'] l)]
    else baseParts
  let suffix : String :=
    if question_type == "mcq" then "mcqs"
    else if question_type == "fib" then "fib"
    else if question_type == "tf" then "tf"
    else question_type
  List.intercalate ['_'] parts ++ ['_'] ++ suffix.data ++ ['.','j','s','o','n']

/-! ### The per-type generators (mcq_generator.py lines 104-212 and the
analogous `generate_fill_in_blank`, `generate_true_false`)

The external completion service enters as its outcome
`completion : Except PyStr PyStr` (`llm_service.generate_completion` either
returns the completion text or raises).  The orchestrator always passes the
shared `chapter_content`, so the OpenSearch retrieval branch is not taken;
the generator still checks `if not chapter_content: raise ValueError`.
File writing (`save_questions_to_file`) is an external sink and is not
modelled beyond the returned filename. -/

/-- The untyped question payloads travelling back to the orchestrator. -/
inductive PipelineData where
  | mcqData (qs : List MCQQuestion) : PipelineData
  | fibData (qs : List FillInBlankQuestion) : PipelineData
  | tfData (qs : List TrueFalseQuestion) : PipelineData
  deriving DecidableEq, Repr

def msgNoContent (chapter_name content_id : PyStr) : PyStr :=
  ("No content found for chapter ").toList ++ chapter_name ++ (" in ").toList ++ content_id

/-- `generate_mcqs`: content check, per-type breakdown, completion call,
parse, zero-parse failure, filename; returns `(response, filename)`. -/
def generate_mcqs (completion : Except PyStr PyStr) (chapter_name content_id : PyStr)
    (lo : LearnObj) (num_questions : ℤ) (dd bd : List (String × ℚ))
    (chapter_content : PyStr) : Except PyStr (List MCQQuestion × PyStr) :=
  if chapter_content.isEmpty then .error (msgNoContent chapter_name content_id)
  else
    let question_breakdown := calculate_question_distribution num_questions [("mcq", 1)] dd bd
    match completion with
    | .error e => .error e
    | .ok text =>
      let questions := parse_mcq_response text question_breakdown
      if questions.isEmpty then
        .error (("No valid MCQs could be parsed from LLM response").toList)
      else .ok (questions, generate_filename chapter_name dd bd "mcq" lo)

/-- `generate_fill_in_blank`. -/
def generate_fill_in_blank (completion : Except PyStr PyStr)
    (chapter_name content_id : PyStr) (lo : LearnObj) (num_questions : ℤ)
    (dd bd : List (String × ℚ)) (chapter_content : PyStr) :
    Except PyStr (List FillInBlankQuestion × PyStr) :=
  if chapter_content.isEmpty then .error (msgNoContent chapter_name content_id)
  else
    let question_breakdown := calculate_question_distribution num_questions [("fib", 1)] dd bd
    match completion with
    | .error e => .error e
    | .ok text =>
      let questions := parse_fib_response text question_breakdown
      if questions.isEmpty then
        .error (("No valid fill-in-the-blank questions could be parsed from LLM response").toList)
      else .ok (questions, generate_filename chapter_name dd bd "fib" lo)

/-- `generate_true_false`. -/
def generate_true_false (completion : Except PyStr PyStr)
    (chapter_name content_id : PyStr) (lo : LearnObj) (num_questions : ℤ)
    (dd bd : List (String × ℚ)) (chapter_content : PyStr) :
    Except PyStr (List TrueFalseQuestion × PyStr) :=
  if chapter_content.isEmpty then .error (msgNoContent chapter_name content_id)
  else
    let question_breakdown := calculate_question_distribution num_questions [("tf", 1)] dd bd
    match completion with
    | .error e => .error e
    | .ok text =>
      let questions := parse_tf_response text question_breakdown
      if questions.isEmpty then
        .error (("No valid true/false questions could be parsed from LLM response").toList)
      else .ok (questions, generate_filename chapter_name dd bd "tf" lo)

/-! ### TypePipeline: `_generate_single_question_type_sync`
(question_generation_service.py lines 225-297) -/

/-- The 4-tuple `(question_type, file_name, {"response": ...}, error)` one
pipeline returns to the orchestrator. -/
structure PipelineResult where
  question_type : String
  file_name : Option PyStr
  question_data : Option PipelineData
  error : Option PyStr
  deriving DecidableEq, Repr

/-- The dispatch in the `try` body of `_generate_single_question_type_sync`:
branch on the question type, unknown types raise
`ValueError(f"Unknown question type: ...")`. -/
def pipelineBody (completion : Except PyStr PyStr) (question_type : String)
    (chapter_content chapter_name content_id : PyStr) (lo : LearnObj)
    (num_questions : ℤ) (dd bd : List (String × ℚ)) :
    Except PyStr (PipelineData × PyStr) :=
  if question_type == "mcq" then
    (generate_mcqs completion chapter_name content_id lo num_questions dd bd
      chapter_content).map (fun r => (.mcqData r.1, r.2))
  else if question_type == "fib" then
    (generate_fill_in_blank completion chapter_name content_id lo num_questions dd bd
      chapter_content).map (fun r => (.fibData r.1, r.2))
  else if question_type == "tf" then
    (generate_true_false completion chapter_name content_id lo num_questions dd bd
      chapter_content).map (fun r => (.tfData r.1, r.2))
  else .error (("Unknown question type: ").toList ++ question_type.data)

/-- `_generate_single_question_type_sync`: the whole body sits in a
`try/except` whose `except` branch returns
`(question_type, None, None, str(e))` — every failure becomes a value. -/
def generateSingleQuestionTypeSync (completion : Except PyStr PyStr)
    (question_type : String) (configs : List QEntry)
    (chapter_content chapter_name content_id : PyStr) (lo : LearnObj) :
    PipelineResult :=
  match pipelineBody completion question_type chapter_content chapter_name content_id lo
      (totalForType configs) (typeMarginals configs).1 (typeMarginals configs).2 with
  | .ok (data, fn) =>
    { question_type := question_type, file_name := some fn
      question_data := some data, error := none }
  | .error e =>
    { question_type := question_type, file_name := none
      question_data := none, error := some e }

/-! ### Orchestrator: `generate_questions`
(question_generation_service.py lines 28-157)

`asyncio.gather(..., return_exceptions=True)` returns the pipeline results in
submission order; since `_generate_single_question_type_sync` returns a value
on every path, the gathered list contains only result tuples (a raised
exception could only come from the scheduling layer itself, outside this
embedding).  Wall-clock timing text inside the success message is external and
enters as the opaque `timing` parameter. -/

def RESPONSE_SUCCESS_TEMPLATE (total_questions : ℤ) (question_types : ℕ) : PyStr :=
  ("✅ Generated ").toList ++ (toString total_questions).data ++
    (" questions across ").toList ++ (toString question_types).data ++
    (" question types").toList

def RESPONSE_ERROR_TEMPLATE (error_message : PyStr) : PyStr :=
  ("❌ Error generating questions: ").toList ++ error_message

/-- `f"Error in {question_type}: {error}"`. -/
def errorInMsg (question_type : String) (e : PyStr) : PyStr :=
  ("Error in ").toList ++ question_type.data ++ (": ").toList ++ e

/-- One iteration of the result-processing loop (lines 97-109): the first
error raises (and, once raised, short-circuits the rest), successes
accumulate `files_generated` and `all_question_data`. -/
def processStep (acc : Except PyStr (List PyStr × List (String × PipelineData)))
    (r : PipelineResult) : Except PyStr (List PyStr × List (String × PipelineData)) :=
  match acc with
  | .error e => .error e
  | .ok (files, data) =>
    match r.error with
    | some e => .error (errorInMsg r.question_type e)
    | none =>
      .ok (files ++ (match r.file_name with | some f => [f] | none => []),
           data ++ (match r.question_data with
                    | some d => [(r.question_type, d)]
                    | none => []))

/-- The result-processing loop over all pipeline results. -/
def processResults (results : List PipelineResult) :
    Except PyStr (List PyStr × List (String × PipelineData)) :=
  results.foldl processStep (.ok ([], []))

/-- The request fields consumed by the orchestrator. -/
structure RequestModel where
  contentId : PyStr
  chapter_name : PyStr
  learning_objectives : LearnObj
  total_questions : ℤ
  question_type_distribution : List (String × ℚ)
  difficulty_distribution : List (String × ℚ)
  blooms_taxonomy_distribution : List (String × ℚ)
  session_id : PyStr
  deriving Repr

/-- `QuestionGenerationResponse`: identical shape on success and on error. -/
structure ResponseModel where
  status : String
  message : PyStr
  session_id : PyStr
  contentId : PyStr
  chapter_name : PyStr
  learning_objectives : LearnObj
  total_questions : ℤ
  question_type_distribution : List (String × ℚ)
  difficulty_distribution : List (String × ℚ)
  blooms_taxonomy_distribution : List (String × ℚ)
  files_generated : List PyStr
  data : List (String × PipelineData)
  deriving Repr

/-- `generate_questions` after the parallel fan-out: content check, result
processing, and the `try/except` that turns any raised error into the error
response with empty `files_generated` and empty `data`. -/
def generate_questions (req : RequestModel) (chapter_content : PyStr)
    (results : List PipelineResult) (source_id timing : PyStr) : ResponseModel :=
  let errResponse : PyStr → ResponseModel := fun e =>
    { status := "error"
      message := RESPONSE_ERROR_TEMPLATE e
      session_id := req.session_id
      contentId := req.contentId
      chapter_name := req.chapter_name
      learning_objectives := req.learning_objectives
      total_questions := req.total_questions
      question_type_distribution := req.question_type_distribution
      difficulty_distribution := req.difficulty_distribution
      blooms_taxonomy_distribution := req.blooms_taxonomy_distribution
      files_generated := []
      data := [] }
  if chapter_content.isEmpty then
    errResponse (msgNoContent req.chapter_name req.contentId)
  else
    match processResults results with
    | .error e => errResponse e
    | .ok (files, data) =>
      let type_groups := groupByQuestionType
        (calculate_question_distribution req.total_questions
          req.question_type_distribution req.difficulty_distribution
          req.blooms_taxonomy_distribution)
      { status := "success"
        message := RESPONSE_SUCCESS_TEMPLATE req.total_questions type_groups.length ++
          (" for source: ").toList ++ source_id ++ timing
        session_id := req.session_id
        contentId := req.contentId
        chapter_name := req.chapter_name
        learning_objectives := req.learning_objectives
        total_questions := req.total_questions
        question_type_distribution := req.question_type_distribution
        difficulty_distribution := req.difficulty_distribution
        blooms_taxonomy_distribution := req.blooms_taxonomy_distribution
        files_generated := files
        data := data }

/-! ### Specification-side helper definitions (used only in theorem statements) -/

/-- A default record for positional access into parser output. -/
def emptyMCQ : MCQQuestion :=
  { question := [], answer := [], explanation := [], distractors := []
    difficulty := "", blooms_level := "", question_type := "mcq" }

/-- The specification wording for a fill-in-blank answer line
"matching a leading `<digits>. ` pattern": one or more digits immediately
followed by `". "`. -/
def specLeadingNumbered (l : PyStr) : Bool :=
  let digits := l.takeWhile Char.isDigit
  !digits.isEmpty && startsWith (l.drop digits.length) dotSpace

/-- The first pipeline result carrying an error, in result order. -/
def firstError (results : List PipelineResult) : Option (String × PyStr) :=
  results.findSome? (fun r => r.error.map (fun e => (r.question_type, e)))

/- Batteries marks the rational-number operations `@[irreducible]`, which
blocks `decide` from evaluating the allocator on concrete inputs; restore the
default reducibility for this development. -/
attribute [local semireducible] Rat.add Rat.sub Rat.mul Rat.inv Rat.ofScientific

/-! ## Lemmas about the allocator -/

theorem pyInt_eq_floor {q : ℚ} (h : 0 ≤ q) : pyInt q = ⌊q⌋ := by
  simp [pyInt, not_lt.mpr h]

theorem pyInt_nonneg {q : ℚ} (h : 0 ≤ q) : 0 ≤ pyInt q := by
  rw [pyInt_eq_floor h]
  exact Int.floor_nonneg.mpr h

theorem pyInt_le {q : ℚ} (h : 0 ≤ q) : (pyInt q : ℚ) ≤ q := by
  rw [pyInt_eq_floor h]
  exact Int.floor_le q

theorem lt_pyInt_add_one {q : ℚ} (h : 0 ≤ q) : q < (pyInt q : ℚ) + 1 := by
  rw [pyInt_eq_floor h]
  exact_mod_cast Int.lt_floor_add_one q

theorem mem_crossEntries {total : ℤ} {qd dd bd : List (String × ℚ)} {e : DistEntry} :
    e ∈ crossEntries total qd dd bd ↔
      ∃ q ∈ qd, ∃ d ∈ dd, ∃ b ∈ bd, e = mkFracEntry total q d b := by
  constructor
  · intro he
    rcases List.mem_flatten.mp he with ⟨l, hl, hel⟩
    rcases List.mem_map.mp hl with ⟨q, hq, rfl⟩
    rcases List.mem_flatten.mp hel with ⟨l2, hl2, hel2⟩
    rcases List.mem_map.mp hl2 with ⟨d, hd, rfl⟩
    rcases List.mem_map.mp hel2 with ⟨b, hb, rfl⟩
    exact ⟨q, hq, d, hd, b, hb, rfl⟩
  · rintro ⟨q, hq, d, hd, b, hb, rfl⟩
    refine List.mem_flatten.mpr ⟨_, List.mem_map.mpr ⟨q, hq, rfl⟩, ?_⟩
    refine List.mem_flatten.mpr ⟨_, List.mem_map.mpr ⟨d, hd, rfl⟩, ?_⟩
    exact List.mem_map.mpr ⟨b, hb, rfl⟩

theorem count_eq_pyInt_exact {total : ℤ} {qd dd bd : List (String × ℚ)} {e : DistEntry}
    (he : e ∈ crossEntries total qd dd bd) : e.count = pyInt e.exact_count := by
  rcases mem_crossEntries.mp he with ⟨q, _, d, _, b, _, rfl⟩
  rfl

theorem exact_nonneg_of_mem {total : ℤ} {qd dd bd : List (String × ℚ)} {e : DistEntry}
    (hT : 0 ≤ total)
    (hq : ∀ p ∈ qd, 0 ≤ p.2) (hd : ∀ p ∈ dd, 0 ≤ p.2) (hb : ∀ p ∈ bd, 0 ≤ p.2)
    (he : e ∈ crossEntries total qd dd bd) : 0 ≤ e.exact_count := by
  rcases mem_crossEntries.mp he with ⟨q, hqm, d, hdm, b, hbm, rfl⟩
  have : (0 : ℚ) ≤ (total : ℚ) := by exact_mod_cast hT
  exact mul_nonneg (mul_nonneg (mul_nonneg this (hq q hqm)) (hd d hdm)) (hb b hbm)

@[simp] theorem mkFracEntry_exact (total : ℤ) (q d b : String × ℚ) :
    (mkFracEntry total q d b).exact_count = (total : ℚ) * q.2 * d.2 * b.2 := rfl

@[simp] theorem mkFracEntry_count (total : ℤ) (q d b : String × ℚ) :
    (mkFracEntry total q d b).count = pyInt ((total : ℚ) * q.2 * d.2 * b.2) := rfl

@[simp] theorem mkFracEntry_key (total : ℤ) (q d b : String × ℚ) :
    (mkFracEntry total q d b).key = distKey q.1 d.1 b.1 := rfl

theorem sum_exact_bd (total : ℤ) (q d : String × ℚ) (bd : List (String × ℚ)) :
    ((bd.map (fun b => mkFracEntry total q d b)).map (·.exact_count)).sum
      = (total : ℚ) * q.2 * d.2 * ((bd.map (·.2)).sum) := by
  induction bd with
  | nil => simp
  | cons b bs ih =>
    simp only [List.map_cons, List.sum_cons, ih, mkFracEntry_exact]
    ring

theorem sum_exact_dd (total : ℤ) (q : String × ℚ) (dd bd : List (String × ℚ)) :
    (((dd.map (fun d => bd.map (fun b => mkFracEntry total q d b))).flatten).map
        (·.exact_count)).sum
      = (total : ℚ) * q.2 * ((dd.map (·.2)).sum) * ((bd.map (·.2)).sum) := by
  induction dd with
  | nil => simp
  | cons d ds ih =>
    simp only [List.map_cons, List.flatten_cons, List.map_append, List.sum_append, ih,
      sum_exact_bd, List.sum_cons]
    ring

theorem sum_exact_cross (total : ℤ) (qd dd bd : List (String × ℚ)) :
    ((crossEntries total qd dd bd).map (·.exact_count)).sum
      = (total : ℚ) * ((qd.map (·.2)).sum) * ((dd.map (·.2)).sum) * ((bd.map (·.2)).sum) := by
  induction qd with
  | nil => simp [crossEntries]
  | cons q qs ih =>
    simp only [crossEntries, List.map_cons, List.flatten_cons, List.map_append,
      List.sum_append] at ih ⊢
    rw [ih, sum_exact_dd]
    simp only [List.map_cons, List.sum_cons]
    ring

/-! Dict-build lemmas: when the generated keys are distinct no upsert ever
overwrites, so the `fractional_distribution` dict is the cross-product list;
and the dict's keys are distinct by construction in any case. -/

theorem foldl_dictUpsert_eq_append {l : List DistEntry} :
    ∀ {acc : List DistEntry}, ((acc ++ l).map (·.key)).Nodup →
      l.foldl dictUpsert acc = acc ++ l := by
  induction l with
  | nil => intro acc _; simp
  | cons e es ih =>
    intro acc hnd
    have hnd' : ((acc.map (·.key)) ++ (e.key :: es.map (·.key))).Nodup := by
      simpa [List.map_append] using hnd
    obtain ⟨h1, h2, hdisj⟩ := List.nodup_append.mp hnd'
    have hkey : acc.any (fun x => x.key == e.key) = false := by
      rw [List.any_eq_false]
      intro x hx hbeq
      have hxe : x.key = e.key := by simpa using hbeq
      exact hdisj (List.mem_map.mpr ⟨x, hx, hxe⟩) (List.mem_cons_self _ _)
    have hup : dictUpsert acc e = acc ++ [e] := by
      simp [dictUpsert, hkey]
    rw [List.foldl_cons, hup]
    have hres := @ih (acc ++ [e]) (by simpa using hnd)
    simpa using hres

theorem buildFractional_eq_cross {total : ℤ} {qd dd bd : List (String × ℚ)}
    (hnd : ((crossEntries total qd dd bd).map (·.key)).Nodup) :
    buildFractional total qd dd bd = crossEntries total qd dd bd := by
  have := @foldl_dictUpsert_eq_append (crossEntries total qd dd bd) []
    (by simpa using hnd)
  simpa [buildFractional] using this

theorem keys_dictUpsert_of_mem {acc : List DistEntry} {e : DistEntry}
    (hmem : acc.any (fun x => x.key == e.key) = true) :
    (dictUpsert acc e).map (·.key) = acc.map (·.key) := by
  simp only [dictUpsert, hmem, if_true, List.map_map]
  refine List.map_congr_left ?_
  intro x _
  by_cases h : x.key = e.key
  · simp [Function.comp, h]
  · simp [Function.comp, h]

theorem keys_nodup_dictUpsert {acc : List DistEntry} {e : DistEntry}
    (h : (acc.map (·.key)).Nodup) : ((dictUpsert acc e).map (·.key)).Nodup := by
  by_cases hmem : acc.any (fun x => x.key == e.key) = true
  · rw [keys_dictUpsert_of_mem hmem]; exact h
  · have hmem' : acc.any (fun x => x.key == e.key) = false := by
      simpa using hmem
    have hnotin : e.key ∉ acc.map (·.key) := by
      intro hin
      rcases List.mem_map.mp hin with ⟨x, hx, hxk⟩
      have : acc.any (fun x => x.key == e.key) = true :=
        List.any_eq_true.mpr ⟨x, hx, by simp [hxk]⟩
      simp [this] at hmem'
    simp only [dictUpsert, hmem', if_false, Bool.false_eq_true, List.map_append, List.map_cons,
      List.map_nil]
    exact List.nodup_append.mpr ⟨h, List.nodup_singleton _, by
      intro a ha hb
      rcases List.mem_singleton.mp hb with rfl
      exact hnotin ha⟩

theorem keys_nodup_foldl_dictUpsert (l : List DistEntry) :
    ∀ {acc : List DistEntry}, (acc.map (·.key)).Nodup →
      ((l.foldl dictUpsert acc).map (·.key)).Nodup := by
  induction l with
  | nil => intro acc h; simpa using h
  | cons e es ih =>
    intro acc h
    exact ih (keys_nodup_dictUpsert h)

theorem keys_nodup_buildFractional (total : ℤ) (qd dd bd : List (String × ℚ)) :
    ((buildFractional total qd dd bd).map (·.key)).Nodup :=
  keys_nodup_foldl_dictUpsert _ (by simp)

theorem mem_dictUpsert {acc : List DistEntry} {e x : DistEntry}
    (hx : x ∈ dictUpsert acc e) : x ∈ acc ∨ x = e := by
  by_cases hmem : acc.any (fun y => y.key == e.key) = true
  · simp only [dictUpsert, hmem, if_true] at hx
    rcases List.mem_map.mp hx with ⟨y, hy, rfl⟩
    by_cases hk : y.key = e.key
    · right; simp [hk]
    · left; simpa [hk] using hy
  · have hmem' : acc.any (fun y => y.key == e.key) = false := by simpa using hmem
    simp only [dictUpsert, hmem', if_false, Bool.false_eq_true, List.mem_append,
      List.mem_singleton] at hx
    exact hx

theorem mem_foldl_dictUpsert {l : List DistEntry} :
    ∀ {a : List DistEntry} {e : DistEntry},
      e ∈ l.foldl dictUpsert a → e ∈ a ∨ e ∈ l := by
  intro a e
  induction l generalizing a with
  | nil => intro h; left; simpa using h
  | cons y ys ih =>
    intro h
    rcases ih (a := dictUpsert a y) h with h1 | h2
    · rcases mem_dictUpsert h1 with h3 | h3
      · exact Or.inl h3
      · exact Or.inr (by simp [h3])
    · exact Or.inr (List.mem_cons_of_mem _ h2)

theorem mem_buildFractional {total : ℤ} {qd dd bd : List (String × ℚ)} {e : DistEntry}
    (he : e ∈ buildFractional total qd dd bd) : e ∈ crossEntries total qd dd bd := by
  rcases mem_foldl_dictUpsert he with h | h
  · simp at h
  · exact h

/-! Remainder-pass lemmas. -/

theorem bumpKey_keys (l : List DistEntry) (k : String) :
    (bumpKey l k).map (·.key) = l.map (·.key) := by
  simp only [bumpKey, List.map_map]
  refine List.map_congr_left ?_
  intro x _
  by_cases h : x.key = k
  · simp [Function.comp, h]
  · simp [Function.comp, h]

theorem bumpKey_of_not_mem {l : List DistEntry} {k : String}
    (h : k ∉ l.map (·.key)) : bumpKey l k = l := by
  simp only [bumpKey]
  apply List.map_congr_left ?_ |>.trans (List.map_id _)
  intro x hx
  have : x.key ≠ k := fun he => h (List.mem_map.mpr ⟨x, hx, he⟩)
  simp [this]

@[simp] theorem bump_count (e : DistEntry) :
    ({ e with count := e.count + 1 } : DistEntry).count = e.count + 1 := rfl

@[simp] theorem bump_key (e : DistEntry) :
    ({ e with count := e.count + 1 } : DistEntry).key = e.key := rfl

theorem bumpKey_cons (e : DistEntry) (es : List DistEntry) (k : String) :
    bumpKey (e :: es) k =
      (if e.key == k then { e with count := e.count + 1 } else e) :: bumpKey es k := by
  simp [bumpKey]

theorem currentTotal_cons (e : DistEntry) (l : List DistEntry) :
    currentTotal (e :: l) = e.count + currentTotal l := by
  simp [currentTotal]

theorem currentTotal_bumpKey {l : List DistEntry} {k : String}
    (hnd : (l.map (·.key)).Nodup) (hk : k ∈ l.map (·.key)) :
    currentTotal (bumpKey l k) = currentTotal l + 1 := by
  induction l with
  | nil => simp at hk
  | cons e es ih =>
    simp only [List.map_cons, List.nodup_cons] at hnd
    rw [bumpKey_cons, currentTotal_cons, currentTotal_cons]
    rcases List.mem_cons.mp hk with hek | hk'
    · have hes : k ∉ es.map (·.key) := hek ▸ hnd.1
      rw [bumpKey_of_not_mem hes, if_pos (by simp [hek])]
      rw [bump_count]
      omega
    · have hek : ¬ (e.key == k) = true := by
        simp only [beq_iff_eq]
        intro he
        exact hnd.1 (he ▸ hk')
      rw [if_neg hek, ih hnd.2 hk']
      omega

theorem currentTotal_foldl_bumpKey {ks : List String} :
    ∀ {l : List DistEntry}, (l.map (·.key)).Nodup → (∀ k ∈ ks, k ∈ l.map (·.key)) →
      currentTotal (ks.foldl bumpKey l) = currentTotal l + ks.length := by
  induction ks with
  | nil => intro l _ _; simp
  | cons k ks ih =>
    intro l hnd hmem
    have h1 := currentTotal_bumpKey hnd (hmem k (by simp))
    have hkeys := bumpKey_keys l k
    have h2 := ih (l := bumpKey l k) (by rw [hkeys]; exact hnd)
      (by intro k2 hk2; rw [hkeys]; exact hmem k2 (by simp [hk2]))
    simp only [List.foldl_cons, List.length_cons]
    rw [h2, h1]
    push_cast
    ring

theorem foldl_bumpKey_eq_indicator {ks : List String} :
    ∀ {l : List DistEntry}, ks.Nodup →
      ks.foldl bumpKey l =
        l.map (fun e => if e.key ∈ ks then { e with count := e.count + 1 } else e) := by
  induction ks with
  | nil => intro l _; simp
  | cons k ks ih =>
    intro l hnd
    rcases List.nodup_cons.mp hnd with ⟨hkn, hnd'⟩
    simp only [List.foldl_cons]
    rw [ih hnd']
    simp only [bumpKey, List.map_map]
    refine List.map_congr_left ?_
    intro e _
    simp only [Function.comp]
    by_cases h1 : e.key = k
    · have h2 : e.key ∉ ks := fun hc => hkn (h1 ▸ hc)
      simp [h1, h2, hkn]
    · by_cases h2 : e.key ∈ ks
      · simp [h1, h2]
      · simp [h1, h2]

theorem currentTotal_filter_pos {l : List DistEntry}
    (h : ∀ e ∈ l, 0 ≤ e.count) :
    ((l.filter (fun e => decide (0 < e.count))).map (·.count)).sum = currentTotal l := by
  induction l with
  | nil => simp [currentTotal]
  | cons e es ih =>
    have he := h e (by simp)
    have ih' := ih (fun x hx => h x (by simp [hx]))
    rw [currentTotal_cons]
    by_cases hpos : 0 < e.count
    · rw [List.filter_cons_of_pos (by simpa using hpos)]
      simp only [List.map_cons, List.sum_cons, ih']
    · have hz : e.count = 0 := le_antisymm (not_lt.mp hpos) he
      rw [List.filter_cons_of_neg (by simpa using hpos)]
      rw [ih', hz]
      ring

/-! Assembling the allocator sum theorem. -/

theorem cast_currentTotal (l : List DistEntry) :
    ((currentTotal l : ℤ) : ℚ) = (l.map (fun e => (e.count : ℚ))).sum := by
  induction l with
  | nil => simp [currentTotal]
  | cons e es ih =>
    rw [currentTotal_cons]
    push_cast
    rw [ih]
    simp

theorem sortedEntries_perm (l : List DistEntry) : List.Perm (sortedEntries l) l :=
  List.perm_insertionSort entLE l

theorem awardedKeys_sub (total : ℤ) (l : List DistEntry) :
    ∀ k ∈ awardedKeys total l, k ∈ l.map (·.key) := by
  intro k hk
  have h1 : k ∈ (sortedEntries l).map (·.key) := List.take_subset _ _ hk
  exact ((sortedEntries_perm l).map (·.key)).mem_iff.mp h1

theorem awardedKeys_nodup {l : List DistEntry} (hnd : (l.map (·.key)).Nodup)
    (total : ℤ) : (awardedKeys total l).Nodup := by
  have h1 : ((sortedEntries l).map (·.key)).Nodup :=
    (((sortedEntries_perm l).map (·.key)).nodup_iff).mpr hnd
  exact h1.sublist (List.take_sublist _ _)

/-- C1 core: with each proportion map summing to 1 and all weights
non-negative (and no key collisions in the generated dict keys), the final
counts sum exactly to the requested total. -/
theorem sum_counts_eq_total (total : ℤ) (qd dd bd : List (String × ℚ))
    (hT : 0 ≤ total)
    (hq1 : (qd.map (·.2)).sum = 1) (hd1 : (dd.map (·.2)).sum = 1)
    (hb1 : (bd.map (·.2)).sum = 1)
    (hqn : ∀ p ∈ qd, 0 ≤ p.2) (hdn : ∀ p ∈ dd, 0 ≤ p.2) (hbn : ∀ p ∈ bd, 0 ≤ p.2)
    (hnd : ((crossEntries total qd dd bd).map (·.key)).Nodup) :
    ((calculate_question_distribution total qd dd bd).map (·.count)).sum = total := by
  set l := crossEntries total qd dd bd with hl
  have hbe : buildFractional total qd dd bd = l := buildFractional_eq_cross hnd
  have hex : ∀ e ∈ l, 0 ≤ e.exact_count := fun e he =>
    exact_nonneg_of_mem hT hqn hdn hbn he
  have hcnt : ∀ e ∈ l, e.count = pyInt e.exact_count := fun e he =>
    count_eq_pyInt_exact he
  have hcnt0 : ∀ e ∈ l, 0 ≤ e.count := fun e he =>
    (hcnt e he) ▸ pyInt_nonneg (hex e he)
  have hsumexact : (l.map (·.exact_count)).sum = (total : ℚ) := by
    rw [hl, sum_exact_cross, hq1, hd1, hb1]
    ring
  -- current total is at most the requested total
  have hle : currentTotal l ≤ total := by
    have h1 : ((currentTotal l : ℤ) : ℚ) ≤ (total : ℚ) := by
      rw [cast_currentTotal, ← hsumexact]
      refine List.sum_le_sum ?_
      intro e he
      rw [hcnt e he]
      exact pyInt_le (hex e he)
    exact_mod_cast h1
  have hR0 : 0 ≤ remainderOf total l := by
    simp only [remainderOf]
    omega
  -- the remainder is at most the number of combinations
  have hRn : remainderOf total l ≤ (l.length : ℤ) := by
    by_cases hnil : l = []
    · have h0 : currentTotal l = 0 := by simp [hnil, currentTotal]
      have ht0 : total = 0 := by
        have hq : (0 : ℚ) = (total : ℚ) := by simpa [hnil] using hsumexact
        exact_mod_cast hq.symm
      simp [remainderOf, h0, ht0, hnil, currentTotal]
    · have hne : l ≠ [] := hnil
      have hfrac : ∀ e ∈ l, e.exact_count - (e.count : ℚ) < 1 := by
        intro e he
        have := lt_pyInt_add_one (hex e he)
        rw [← hcnt e he] at this
        linarith
      have hlt : ((remainderOf total l : ℤ) : ℚ) < (l.length : ℚ) := by
        have hsplit : ((remainderOf total l : ℤ) : ℚ)
            = (l.map (fun e => e.exact_count - (e.count : ℚ))).sum := by
          have : (l.map (fun e => e.exact_count - (e.count : ℚ))).sum
              = (l.map (·.exact_count)).sum - (l.map (fun e => (e.count : ℚ))).sum := by
            induction l with
            | nil => simp
            | cons x xs ih => simp only [List.map_cons, List.sum_cons, ih]; ring
          rw [this, hsumexact, ← cast_currentTotal]
          push_cast [remainderOf]
          ring
        have hsum1 : (l.map (fun _ => (1 : ℚ))).sum = (l.length : ℚ) := by
          induction l with
          | nil => simp
          | cons x xs ih => simp only [List.map_cons, List.sum_cons, ih, List.length_cons]; push_cast; ring
        rw [hsplit, ← hsum1]
        refine List.sum_lt_sum _ _ (fun e he => le_of_lt (hfrac e he)) ?_
        rcases List.exists_mem_of_ne_nil l hne with ⟨e, he⟩
        exact ⟨e, he, hfrac e he⟩
      have := hlt
      exact_mod_cast le_of_lt this
  -- the build dict has distinct keys and the awarded keys all occur in it
  have hndl : (l.map (·.key)).Nodup := hnd
  have hlen : (awardedKeys total l).length = (remainderOf total l).toNat := by
    have h1 : (sortedEntries l).length = l.length := (sortedEntries_perm l).length_eq
    have h2 : (remainderOf total l).toNat ≤ l.length := by
      simp only [remainderOf] at hRn hR0 ⊢
      omega
    simp only [awardedKeys, List.length_take, List.length_map, h1]
    exact Nat.min_eq_left h2
  have hafter : currentTotal (applyRemainder total l) = total := by
    rw [applyRemainder]
    rw [currentTotal_foldl_bumpKey hndl (awardedKeys_sub total l)]
    rw [hlen]
    simp only [remainderOf]
    omega
  -- counts stay non-negative after the remainder pass
  have hafter0 : ∀ e ∈ applyRemainder total l, 0 ≤ e.count := by
    rw [applyRemainder, foldl_bumpKey_eq_indicator (awardedKeys_nodup hndl total)]
    intro e2 he2
    rcases List.mem_map.mp he2 with ⟨e, he, rfl⟩
    by_cases hk : e.key ∈ awardedKeys total l
    · simp only [if_pos hk, bump_count]
      have := hcnt0 e he
      omega
    · simp only [if_neg hk]
      exact hcnt0 e he
  -- the final projection keeps the counts
  have hproj : ((calculate_question_distribution total qd dd bd).map (·.count)).sum
      = (((applyRemainder total l).filter (fun e => decide (0 < e.count))).map
          (·.count)).sum := by
    simp only [calculate_question_distribution, hbe, List.map_map]
    rfl
  rw [hproj, currentTotal_filter_pos hafter0, hafter]

/-! Stability of the remainder sort. -/

theorem mem_take_of_pair_sublist {α : Type} {x y : α} :
    ∀ {l : List α} {n : ℕ}, l.Nodup → [x, y].Sublist l → y ∈ l.take n → x ∈ l.take n := by
  intro l
  induction l with
  | nil =>
    intro n _ hs _
    exact absurd (List.sublist_nil.mp hs) (by simp)
  | cons c cs ih =>
    intro n hnd hs hy
    match n with
    | 0 => simp at hy
    | Nat.succ m =>
      rw [List.take_succ_cons] at hy ⊢
      cases hs with
      | cons _ hs' =>
        have hyc : y ∈ cs := hs'.subset (by simp)
        have hyne : y ≠ c := by
          intro he
          exact (List.nodup_cons.mp hnd).1 (he ▸ hyc)
        have hy' : y ∈ cs.take m := by
          rcases List.mem_cons.mp hy with h | h
          · exact absurd h hyne
          · exact h
        exact List.mem_cons_of_mem _ (ih (List.nodup_cons.mp hnd).2 hs' hy')
      | cons₂ _ hs' =>
        exact List.mem_cons_self _ _

theorem entries_nodup_of_keys {l : List DistEntry} (h : (l.map (·.key)).Nodup) :
    l.Nodup := by
  exact h.of_map _

/-- C7 helper: insertion sort with the allocator's comparison keeps ties in
list order. -/
theorem sortedEntries_stable {l : List DistEntry} {a b : DistEntry}
    (hfrac : fracPart a = fracPart b) (hsub : [a, b].Sublist l) :
    [a, b].Sublist (sortedEntries l) :=
  List.pair_sublist_insertionSort (le_of_eq hfrac.symm) hsub

@[simp] theorem bump_exact (e : DistEntry) :
    ({ e with count := e.count + 1 } : DistEntry).exact_count = e.exact_count := rfl

/-- C1 (amended): for every total ≥ 0 and any three non-negative proportion
maps that each sum to 1 (and whose generated dict keys do not collide), the
integer counts in the allocation returned by `calculate_question_distribution`
sum exactly to the total.  (As stated over arbitrary positive weight maps the
claim is false, see the counterexample: when the weights do not sum to 1 the
remainder pass can run out of combinations, or run dry, and the counts no
longer sum to the total.) -/
theorem alloc_sum_eq_total (total : ℤ) (qd dd bd : List (String × ℚ))
    (hT : 0 ≤ total)
    (hq1 : (qd.map (·.2)).sum = 1) (hd1 : (dd.map (·.2)).sum = 1)
    (hb1 : (bd.map (·.2)).sum = 1)
    (hqn : ∀ p ∈ qd, 0 ≤ p.2) (hdn : ∀ p ∈ dd, 0 ≤ p.2) (hbn : ∀ p ∈ bd, 0 ≤ p.2)
    (hnd : ((crossEntries total qd dd bd).map (·.key)).Nodup) :
    ((calculate_question_distribution total qd dd bd).map (·.count)).sum = total :=
  sum_counts_eq_total total qd dd bd hT hq1 hd1 hb1 hqn hdn hbn hnd

/-- C1 witness: a concrete normalized request where the counts sum to the
total. -/
theorem alloc_sum_eq_total_witness :
    ((calculate_question_distribution 3 [("mcq", 1)]
        [("basic", (1:ℚ)/2), ("advanced", (1:ℚ)/2)] [("remember", 1)]).map
      (·.count)).sum = 3 :=
  alloc_sum_eq_total 3 [("mcq", 1)] [("basic", (1:ℚ)/2), ("advanced", (1:ℚ)/2)]
    [("remember", 1)] (by decide) (by decide) (by decide) (by decide) (by decide)
    (by decide) (by decide) (by decide)

/-- C1 counterexample: total = 2 with maps each holding a positive weight but
the blooms map summing to 1/4; the allocation's counts sum to 1, not 2. -/
theorem alloc_sum_counterexample :
    (∃ p ∈ [("mcq", (1:ℚ))], 0 < p.2) ∧
    (∃ p ∈ [("basic", (1:ℚ))], 0 < p.2) ∧
    (∃ p ∈ [("remember", (1:ℚ)/4)], 0 < p.2) ∧
    ((calculate_question_distribution 2 [("mcq", 1)] [("basic", 1)]
        [("remember", (1:ℚ)/4)]).map (·.count)).sum ≠ 2 := by
  decide

/-- C7: when two combinations have equal fractional parts, the sort driving
the remainder pass keeps them in their first-seen cross-product order, so a
later-seen tied combination can only receive an extra unit if the
earlier-seen one does too.  (The allocator is a pure function of its inputs,
so the assignment is reproducible by construction.) -/
theorem alloc_tie_break_first_seen (total : ℤ) (qd dd bd : List (String × ℚ))
    (a b : DistEntry) (hfrac : fracPart a = fracPart b)
    (hsub : [a, b].Sublist (buildFractional total qd dd bd)) :
    [a, b].Sublist (sortedEntries (buildFractional total qd dd bd)) ∧
    (b.key ∈ awardedKeys total (buildFractional total qd dd bd) →
      a.key ∈ awardedKeys total (buildFractional total qd dd bd)) := by
  have hnd : ((buildFractional total qd dd bd).map (·.key)).Nodup :=
    keys_nodup_buildFractional total qd dd bd
  have hstable := sortedEntries_stable hfrac hsub
  refine ⟨hstable, ?_⟩
  intro hb
  have hknd : ((sortedEntries (buildFractional total qd dd bd)).map (·.key)).Nodup :=
    (((sortedEntries_perm (buildFractional total qd dd bd)).map (·.key)).nodup_iff).mpr hnd
  have hksub : [a.key, b.key].Sublist
      ((sortedEntries (buildFractional total qd dd bd)).map (·.key)) := by
    have := hstable.map (·.key)
    simpa using this
  exact mem_take_of_pair_sublist hknd hksub hb

/-- C7 witness: two combinations tied at fractional part 1/2; the earlier
one (basic) is the one awarded the single remainder unit. -/
theorem alloc_tie_break_witness :
    ([mkFracEntry 1 ("mcq", 1) ("basic", (1:ℚ)/2) ("remember", 1),
      mkFracEntry 1 ("mcq", 1) ("advanced", (1:ℚ)/2) ("remember", 1)].Sublist
        (sortedEntries (buildFractional 1 [("mcq", 1)]
          [("basic", (1:ℚ)/2), ("advanced", (1:ℚ)/2)] [("remember", 1)]))) ∧
    ((mkFracEntry 1 ("mcq", 1) ("advanced", (1:ℚ)/2) ("remember", 1)).key ∈
        awardedKeys 1 (buildFractional 1 [("mcq", 1)]
          [("basic", (1:ℚ)/2), ("advanced", (1:ℚ)/2)] [("remember", 1)]) →
      (mkFracEntry 1 ("mcq", 1) ("basic", (1:ℚ)/2) ("remember", 1)).key ∈
        awardedKeys 1 (buildFractional 1 [("mcq", 1)]
          [("basic", (1:ℚ)/2), ("advanced", (1:ℚ)/2)] [("remember", 1)])) :=
  alloc_tie_break_first_seen 1 [("mcq", 1)]
    [("basic", (1:ℚ)/2), ("advanced", (1:ℚ)/2)] [("remember", 1)] _ _ (by decide)
    (by
      have h : buildFractional 1 [("mcq", 1)]
          [("basic", (1:ℚ)/2), ("advanced", (1:ℚ)/2)] [("remember", 1)]
          = [mkFracEntry 1 ("mcq", 1) ("basic", (1:ℚ)/2) ("remember", 1),
             mkFracEntry 1 ("mcq", 1) ("advanced", (1:ℚ)/2) ("remember", 1)] := by
        decide
      rw [h])

/-- C10: every combination's count after the remainder pass is its floor
count or that plus one — no combination receives more than one extra unit —
and every entry of the returned allocation carries the key and count of such
an entry. -/
theorem alloc_count_floor_or_succ (total : ℤ) (qd dd bd : List (String × ℚ))
    (hT : 0 ≤ total)
    (hqn : ∀ p ∈ qd, 0 ≤ p.2) (hdn : ∀ p ∈ dd, 0 ≤ p.2) (hbn : ∀ p ∈ bd, 0 ≤ p.2) :
    (∀ e ∈ applyRemainder total (buildFractional total qd dd bd),
      e.count = ⌊e.exact_count⌋ ∨ e.count = ⌊e.exact_count⌋ + 1) ∧
    (∀ q ∈ calculate_question_distribution total qd dd bd,
      ∃ e ∈ applyRemainder total (buildFractional total qd dd bd),
        q.key = e.key ∧ q.count = e.count) := by
  have hnd : ((buildFractional total qd dd bd).map (·.key)).Nodup :=
    keys_nodup_buildFractional total qd dd bd
  constructor
  · intro e2 he2
    rw [applyRemainder, foldl_bumpKey_eq_indicator (awardedKeys_nodup hnd total)] at he2
    rcases List.mem_map.mp he2 with ⟨e, he, rfl⟩
    have hec : e ∈ crossEntries total qd dd bd := mem_buildFractional he
    have hcnt : e.count = pyInt e.exact_count := count_eq_pyInt_exact hec
    have hex : 0 ≤ e.exact_count := exact_nonneg_of_mem hT hqn hdn hbn hec
    have hfl : e.count = ⌊e.exact_count⌋ := hcnt.trans (pyInt_eq_floor hex)
    by_cases hk : e.key ∈ awardedKeys total (buildFractional total qd dd bd)
    · rw [if_pos hk]
      right
      rw [bump_count, bump_exact, hfl]
    · rw [if_neg hk]
      left
      exact hfl
  · intro q hq
    simp only [calculate_question_distribution, List.mem_map, List.mem_filter] at hq
    rcases hq with ⟨e, ⟨he, _⟩, rfl⟩
    exact ⟨e, he, rfl, rfl⟩

/-- C10 witness: with total 1 over two half-weight combinations, the basic
entry sits at count 1 = floor(1/2) + 1 inside the post-remainder dict. -/
theorem alloc_count_floor_or_succ_witness :
    ({ key := "mcq_basic_remember", question_type := "mcq", difficulty := "basic",
       blooms_level := "remember", exact_count := (1:ℚ)/2, count := 1 } : DistEntry) ∈
      applyRemainder 1 (buildFractional 1 [("mcq", 1)]
        [("basic", (1:ℚ)/2), ("advanced", (1:ℚ)/2)] [("remember", 1)]) ∧
    (({ key := "mcq_basic_remember", question_type := "mcq", difficulty := "basic",
        blooms_level := "remember", exact_count := (1:ℚ)/2, count := 1 } : DistEntry).count
        = ⌊((1:ℚ)/2 : ℚ)⌋ ∨
     ({ key := "mcq_basic_remember", question_type := "mcq", difficulty := "basic",
        blooms_level := "remember", exact_count := (1:ℚ)/2, count := 1 } : DistEntry).count
        = ⌊((1:ℚ)/2 : ℚ)⌋ + 1) :=
  ⟨by decide,
    (alloc_count_floor_or_succ 1 [("mcq", 1)]
      [("basic", (1:ℚ)/2), ("advanced", (1:ℚ)/2)] [("remember", 1)]
      (by decide) (by decide) (by decide) (by decide)).1 _ (by decide)⟩

/-! Degenerate (all-zero) proportion maps: the allocator has no validity
check at all; every exact count is 0, the whole total becomes remainder, and
the remainder pass hands one unit each to the first `total` combinations in
cross-product order. -/

theorem filter_pos_eq_nil_of_zero {l : List DistEntry} (h : ∀ e ∈ l, e.count = 0) :
    l.filter (fun e => decide (0 < e.count)) = [] := by
  induction l with
  | nil => rfl
  | cons e es ih =>
    rw [List.filter_cons_of_neg (by simp [h e (by simp)])]
    exact ih (fun x hx => h x (by simp [hx]))

theorem sortedEntries_of_const_frac {l : List DistEntry}
    (h : ∀ e ∈ l, fracPart e = 0) : sortedEntries l = l := by
  refine List.Sorted.insertionSort_eq ?_
  induction l with
  | nil => exact List.sorted_nil
  | cons e es ih =>
    refine List.sorted_cons.mpr ⟨?_, ih (fun x hx => h x (by simp [hx]))⟩
    intro b hb
    show fracPart b ≤ fracPart e
    rw [h b (by simp [hb]), h e (by simp)]

theorem filter_indicator_take :
    ∀ (l : List DistEntry) (n : ℕ), (l.map (·.key)).Nodup → (∀ e ∈ l, e.count = 0) →
      ((l.map (fun e => if e.key ∈ (l.map (·.key)).take n then
          { e with count := e.count + 1 } else e)).filter (fun e => decide (0 < e.count)))
        = (l.take n).map (fun e => { e with count := e.count + 1 }) := by
  intro l
  induction l with
  | nil => intro n _ _; simp
  | cons e es ih =>
    intro n hnd h0
    match n with
    | 0 =>
      have hid : (e :: es).map (fun x =>
          if x.key ∈ (((e :: es).map (·.key)).take 0) then
            ({ x with count := x.count + 1 } : DistEntry) else x)
          = e :: es := by
        refine (List.map_congr_left ?_).trans (List.map_id _)
        intro x _
        simp
      rw [hid, filter_pos_eq_nil_of_zero h0]
      simp
    | Nat.succ m =>
      have hcons := List.nodup_cons.mp (show (e.key :: es.map (·.key)).Nodup by
        simpa only [List.map_cons] using hnd)
      have hek : e.key ∉ es.map (·.key) := hcons.1
      have hnd' : (es.map (·.key)).Nodup := hcons.2
      have htake : (((e :: es).map (·.key)).take (m + 1))
          = e.key :: ((es.map (·.key)).take m) := by
        simp [List.take_succ_cons]
      rw [htake]
      simp only [List.map_cons]
      rw [if_pos (List.mem_cons_self _ _)]
      have htail : es.map (fun x => if x.key ∈ e.key :: ((es.map (·.key)).take m) then
          ({ x with count := x.count + 1 } : DistEntry) else x)
          = es.map (fun x => if x.key ∈ ((es.map (·.key)).take m) then
          ({ x with count := x.count + 1 } : DistEntry) else x) := by
        refine List.map_congr_left ?_
        intro x hx
        have hxk : x.key ≠ e.key := by
          intro he
          exact hek (he ▸ List.mem_map.mpr ⟨x, hx, rfl⟩)
        by_cases hmem : x.key ∈ (es.map (·.key)).take m
        · rw [if_pos (List.mem_cons_of_mem _ hmem), if_pos hmem]
        · rw [if_neg (by
            simp only [List.mem_cons]
            rintro (hc | hc)
            · exact hxk hc
            · exact hmem hc), if_neg hmem]
      rw [htail]
      rw [List.filter_cons_of_pos (by simp [h0 e (by simp)])]
      rw [ih m hnd' (fun x hx => h0 x (by simp [hx]))]
      simp [List.take_succ_cons]

/-- C6 (amended): the allocator performs no degeneracy check and cannot fail.
With an all-zero proportion map every exact count is 0, so the entire total
becomes remainder and the returned allocation simply gives one unit to each
of the first `total` combinations in cross-product order (all of them, if
there are fewer than `total`). -/
theorem alloc_degenerate_returns_allocation (total : ℤ) (qd dd bd : List (String × ℚ))
    (hT : 0 ≤ total)
    (hdeg : (∀ p ∈ qd, p.2 = 0) ∨ (∀ p ∈ dd, p.2 = 0) ∨ (∀ p ∈ bd, p.2 = 0))
    (hnd : ((crossEntries total qd dd bd).map (·.key)).Nodup) :
    calculate_question_distribution total qd dd bd
      = ((crossEntries total qd dd bd).take total.toNat).map
          (fun e =>
            { key := e.key, question_type := e.question_type,
              difficulty := e.difficulty, blooms_level := e.blooms_level,
              count := 1 }) := by
  set l := crossEntries total qd dd bd with hl
  have hz : ∀ e ∈ l, e.exact_count = 0 := by
    intro e he
    rcases mem_crossEntries.mp he with ⟨q, hq, d, hd, b, hb, rfl⟩
    rw [mkFracEntry_exact]
    rcases hdeg with h | h | h
    · rw [h q hq]; ring
    · rw [h d hd]; ring
    · rw [h b hb]; ring
  have hc0 : ∀ e ∈ l, e.count = 0 := by
    intro e he
    rw [count_eq_pyInt_exact he, hz e he]
    simp [pyInt]
  have hfz : ∀ e ∈ l, fracPart e = 0 := by
    intro e he
    rw [fracPart, hz e he, hc0 e he]
    ring
  have hbe : buildFractional total qd dd bd = l := buildFractional_eq_cross hnd
  have hct : currentTotal l = 0 := by
    refine List.sum_eq_zero ?_
    intro x hx
    rcases List.mem_map.mp hx with ⟨e, he, rfl⟩
    exact hc0 e he
  have hrem : remainderOf total l = total := by
    simp [remainderOf, hct]
  have hsorted : sortedEntries l = l := sortedEntries_of_const_frac hfz
  have haward : awardedKeys total l = (l.map (·.key)).take total.toNat := by
    rw [awardedKeys, hsorted, hrem]
  have hawnd : (awardedKeys total l).Nodup := by
    rw [haward]
    exact hnd.sublist (List.take_sublist _ _)
  have happly : applyRemainder total l
      = l.map (fun e => if e.key ∈ (l.map (·.key)).take total.toNat then
          { e with count := e.count + 1 } else e) := by
    rw [applyRemainder, foldl_bumpKey_eq_indicator hawnd, haward]
  calc calculate_question_distribution total qd dd bd
      = ((applyRemainder total l).filter (fun e => decide (0 < e.count))).map
          (fun e =>
            { key := e.key, question_type := e.question_type,
              difficulty := e.difficulty, blooms_level := e.blooms_level,
              count := e.count }) := by
        simp only [calculate_question_distribution, hbe]
    _ = ((l.take total.toNat).map (fun e => { e with count := e.count + 1 })).map
          (fun e =>
            { key := e.key, question_type := e.question_type,
              difficulty := e.difficulty, blooms_level := e.blooms_level,
              count := e.count }) := by
        rw [happly, filter_indicator_take l total.toNat hnd hc0]
    _ = (l.take total.toNat).map
          (fun e =>
            { key := e.key, question_type := e.question_type,
              difficulty := e.difficulty, blooms_level := e.blooms_level,
              count := 1 }) := by
        rw [List.map_map]
        refine List.map_congr_left ?_
        intro e he
        have he' : e ∈ l := List.take_subset _ _ he
        simp [Function.comp, hc0 e he']

/-- C6 witness: a concrete all-zero difficulty map; the allocator returns the
remainder-pass allocation instead of failing. -/
theorem alloc_degenerate_witness :
    calculate_question_distribution 5 [("mcq", 1)] [("basic", 0)] [("remember", 1)]
      = ((crossEntries 5 [("mcq", 1)] [("basic", 0)] [("remember", 1)]).take
          (5 : ℤ).toNat).map
          (fun e =>
            { key := e.key, question_type := e.question_type,
              difficulty := e.difficulty, blooms_level := e.blooms_level,
              count := 1 }) :=
  alloc_degenerate_returns_allocation 5 [("mcq", 1)] [("basic", 0)] [("remember", 1)]
    (by decide) (Or.inr (Or.inl (by decide))) (by decide)

/-- C6 counterexample: on an all-zero difficulty map the allocator does not
fail with anything — it returns a non-empty allocation (here a single
combination with count 1). -/
theorem alloc_degenerate_counterexample :
    (∀ p ∈ [("basic", (0:ℚ))], p.2 = 0) ∧
    calculate_question_distribution 5 [("mcq", 1)] [("basic", 0)] [("remember", 1)]
      = [{ key := "mcq_basic_remember", question_type := "mcq", difficulty := "basic",
           blooms_level := "remember", count := 1 }] := by
  decide

/-! Lemmas about the orchestrator's per-type marginal distributions. -/

theorem map_addWeight_of_not_mem {xs : List (String × ℚ)} {k : String} {v : ℚ}
    (h : k ∉ xs.map (·.1)) :
    xs.map (fun x => if x.1 == k then (x.1, x.2 + v) else x) = xs := by
  refine (List.map_congr_left ?_).trans (List.map_id _)
  intro x hx
  have : x.1 ≠ k := fun he => h (List.mem_map.mpr ⟨x, hx, he⟩)
  simp [this]

theorem addWeight_sum {k : String} {v : ℚ} :
    ∀ {l : List (String × ℚ)}, (l.map (·.1)).Nodup →
      ((addWeight l k v).map (·.2)).sum = (l.map (·.2)).sum + v := by
  intro l
  induction l with
  | nil => intro _; simp [addWeight]
  | cons x xs ih =>
    intro hnd
    have hcons := List.nodup_cons.mp (show (x.1 :: xs.map (·.1)).Nodup by
      simpa only [List.map_cons] using hnd)
    by_cases hx : x.1 = k
    · have hany : (x :: xs).any (fun y => y.1 == k) = true := by
        simp [hx]
      have hxs : k ∉ xs.map (·.1) := hx ▸ hcons.1
      simp only [addWeight, hany, if_true, List.map_cons, List.sum_cons,
        map_addWeight_of_not_mem hxs]
      simp [hx]
      ring
    · by_cases hmem : xs.any (fun y => y.1 == k) = true
      · have hany : (x :: xs).any (fun y => y.1 == k) = true := by
          simp only [List.any_cons, hmem, Bool.or_true]
        have hxs : addWeight xs k v
            = xs.map (fun y => if y.1 == k then (y.1, y.2 + v) else y) := by
          simp [addWeight, hmem]
        simp only [addWeight, hany, if_true, List.map_cons, List.sum_cons]
        rw [← hxs, ih hcons.2]
        simp [hx]
        ring
      · have hany : (x :: xs).any (fun y => y.1 == k) = false := by
          cases h2 : (x :: xs).any (fun y => y.1 == k) with
          | false => rfl
          | true =>
            rcases List.any_eq_true.mp h2 with ⟨y, hy, hyk⟩
            rcases List.mem_cons.mp hy with rfl | hy2
            · exact absurd (by simpa using hyk) hx
            · exact absurd (List.any_eq_true.mpr ⟨y, hy2, hyk⟩) hmem
        simp only [addWeight, hany, Bool.false_eq_true, if_false, List.map_append,
          List.sum_append, List.map_cons, List.sum_cons, List.map_nil, List.sum_nil]
        ring

theorem addWeight_keys_nodup {k : String} {v : ℚ} {l : List (String × ℚ)}
    (hnd : (l.map (·.1)).Nodup) : ((addWeight l k v).map (·.1)).Nodup := by
  by_cases hmem : l.any (fun y => y.1 == k) = true
  · have : (addWeight l k v).map (·.1) = l.map (·.1) := by
      simp only [addWeight, hmem, if_true, List.map_map]
      refine List.map_congr_left ?_
      intro x _
      simp only [Function.comp]
      by_cases h : x.1 = k
      · rw [if_pos (by simp [h])]
      · rw [if_neg (by simp [h])]
    rw [this]
    exact hnd
  · have hnotin : k ∉ l.map (·.1) := by
      intro hin
      rcases List.mem_map.mp hin with ⟨x, hx, hxk⟩
      exact hmem (List.any_eq_true.mpr ⟨x, hx, by simp [hxk]⟩)
    have hf : l.any (fun y => y.1 == k) = false := Bool.eq_false_iff.mpr hmem
    simp only [addWeight, hf, Bool.false_eq_true, if_false, List.map_append,
      List.map_cons, List.map_nil]
    exact List.nodup_append.mpr ⟨hnd, List.nodup_singleton _, by
      intro a ha hb
      rcases List.mem_singleton.mp hb with rfl
      exact hnotin ha⟩

theorem addWeight_nonneg {k : String} {v : ℚ} {l : List (String × ℚ)}
    (hl : ∀ p ∈ l, 0 ≤ p.2) (hv : 0 ≤ v) : ∀ p ∈ addWeight l k v, 0 ≤ p.2 := by
  intro p hp
  by_cases hmem : l.any (fun y => y.1 == k) = true
  · simp only [addWeight, hmem, if_true] at hp
    rcases List.mem_map.mp hp with ⟨x, hx, rfl⟩
    by_cases h : x.1 = k
    · rw [if_pos (show (x.1 == k) = true by simp [h])]
      have hx2 := hl x hx
      show 0 ≤ x.2 + v
      exact add_nonneg hx2 hv
    · rw [if_neg (show ¬ (x.1 == k) = true by simp [h])]
      exact hl x hx
  · have hf : l.any (fun y => y.1 == k) = false := Bool.eq_false_iff.mpr hmem
    simp only [addWeight, hf, Bool.false_eq_true, if_false, List.mem_append,
      List.mem_singleton] at hp
    rcases hp with h | h
    · exact hl p h
    · rw [h]
      exact hv

theorem marginals_fold_props (t : ℚ) :
    ∀ (cfgs : List QEntry) (dm bm : List (String × ℚ)),
      (dm.map (·.1)).Nodup → (bm.map (·.1)).Nodup →
      (∀ p ∈ dm, 0 ≤ p.2) → (∀ p ∈ bm, 0 ≤ p.2) →
      (∀ e ∈ cfgs, 0 ≤ (e.count : ℚ) / t) →
      (((cfgs.foldl (fun dicts e =>
            (addWeight dicts.1 e.difficulty ((e.count : ℚ) / t),
             addWeight dicts.2 e.blooms_level ((e.count : ℚ) / t))) (dm, bm)).1.map
          (·.2)).sum
          = (dm.map (·.2)).sum + (cfgs.map (fun e => (e.count : ℚ) / t)).sum) ∧
      (((cfgs.foldl (fun dicts e =>
            (addWeight dicts.1 e.difficulty ((e.count : ℚ) / t),
             addWeight dicts.2 e.blooms_level ((e.count : ℚ) / t))) (dm, bm)).2.map
          (·.2)).sum
          = (bm.map (·.2)).sum + (cfgs.map (fun e => (e.count : ℚ) / t)).sum) ∧
      (∀ p ∈ (cfgs.foldl (fun dicts e =>
            (addWeight dicts.1 e.difficulty ((e.count : ℚ) / t),
             addWeight dicts.2 e.blooms_level ((e.count : ℚ) / t))) (dm, bm)).1, 0 ≤ p.2) ∧
      (∀ p ∈ (cfgs.foldl (fun dicts e =>
            (addWeight dicts.1 e.difficulty ((e.count : ℚ) / t),
             addWeight dicts.2 e.blooms_level ((e.count : ℚ) / t))) (dm, bm)).2, 0 ≤ p.2) := by
  intro cfgs
  induction cfgs with
  | nil =>
    intro dm bm _ _ hdm hbm _
    exact ⟨by simp, by simp, hdm, hbm⟩
  | cons e es ih =>
    intro dm bm hdnd hbnd hdm hbm hv
    have hv0 : 0 ≤ (e.count : ℚ) / t := hv e (by simp)
    have hrec := ih (addWeight dm e.difficulty ((e.count : ℚ) / t))
      (addWeight bm e.blooms_level ((e.count : ℚ) / t))
      (addWeight_keys_nodup hdnd) (addWeight_keys_nodup hbnd)
      (addWeight_nonneg hdm hv0) (addWeight_nonneg hbm hv0)
      (fun x hx => hv x (by simp [hx]))
    simp only [List.foldl_cons]
    refine ⟨?_, ?_, hrec.2.2.1, hrec.2.2.2⟩
    · rw [hrec.1, addWeight_sum hdnd]
      simp only [List.map_cons, List.sum_cons]
      ring
    · rw [hrec.2.1, addWeight_sum hbnd]
      simp only [List.map_cons, List.sum_cons]
      ring

theorem cast_totalForType (cfgs : List QEntry) :
    ((totalForType cfgs : ℤ) : ℚ) = (cfgs.map (fun e => (e.count : ℚ))).sum := by
  induction cfgs with
  | nil => simp [totalForType]
  | cons e es ih =>
    simp only [totalForType, List.map_cons, List.sum_cons] at ih ⊢
    push_cast
    rw [← ih]
    push_cast
    ring

theorem sum_div_eq_one (cfgs : List QEntry) (ht : ((totalForType cfgs : ℤ) : ℚ) ≠ 0) :
    (cfgs.map (fun e => (e.count : ℚ) / ((totalForType cfgs : ℤ) : ℚ))).sum = 1 := by
  have h1 : (cfgs.map (fun e => (e.count : ℚ) / ((totalForType cfgs : ℤ) : ℚ))).sum
      = (cfgs.map (fun e => (e.count : ℚ) * (((totalForType cfgs : ℤ) : ℚ))⁻¹)).sum := by
    simp [div_eq_mul_inv]
  rw [h1, List.sum_map_mul_right, ← cast_totalForType]
  field_simp

/-! Group lemmas for `_group_by_question_type`. -/

theorem groupBy_fold_members (P : QEntry → Prop) :
    ∀ (l : List QEntry) (acc : List (String × List QEntry)),
      (∀ g ∈ acc, ∀ e ∈ g.2, P e) → (∀ e ∈ l, P e) →
      ∀ g ∈ l.foldl (fun groups e =>
          if groups.any (fun g => g.1 == e.question_type) then
            groups.map (fun g => if g.1 == e.question_type then (g.1, g.2 ++ [e]) else g)
          else groups ++ [(e.question_type, [e])]) acc,
        ∀ e ∈ g.2, P e := by
  intro l
  induction l with
  | nil =>
    intro acc hacc _
    exact hacc
  | cons x xs ih =>
    intro acc hacc hl
    simp only [List.foldl_cons]
    refine ih _ ?_ (fun e he => hl e (by simp [he]))
    by_cases hmem : acc.any (fun g => g.1 == x.question_type) = true
    · rw [if_pos hmem]
      intro g hg e he
      rcases List.mem_map.mp hg with ⟨g0, hg0, rfl⟩
      by_cases hk : g0.1 = x.question_type
      · rw [if_pos (show (g0.1 == x.question_type) = true by simp [hk])] at he
        rcases List.mem_append.mp he with h | h
        · exact hacc g0 hg0 e h
        · rcases List.mem_singleton.mp h with rfl
          exact hl e (by simp)
      · rw [if_neg (show ¬ (g0.1 == x.question_type) = true by simp [hk])] at he
        exact hacc g0 hg0 e he
    · rw [if_neg hmem]
      intro g hg e he
      rcases List.mem_append.mp hg with h | h
      · exact hacc g h e he
      · rcases List.mem_singleton.mp h with rfl
        rcases List.mem_singleton.mp he with rfl
        exact hl e (by simp)

theorem mem_dist_of_mem_group {dist : List QEntry} {qt : String} {cfgs : List QEntry}
    (hg : (qt, cfgs) ∈ groupByQuestionType dist) : ∀ e ∈ cfgs, e ∈ dist := by
  intro e he
  exact groupBy_fold_members (· ∈ dist) dist [] (by simp) (fun x hx => hx)
    (qt, cfgs) hg e he

theorem groupBy_fold_nonempty :
    ∀ (l : List QEntry) (acc : List (String × List QEntry)),
      (∀ g ∈ acc, g.2 ≠ []) →
      ∀ g ∈ l.foldl (fun groups e =>
          if groups.any (fun g => g.1 == e.question_type) then
            groups.map (fun g => if g.1 == e.question_type then (g.1, g.2 ++ [e]) else g)
          else groups ++ [(e.question_type, [e])]) acc,
        g.2 ≠ [] := by
  intro l
  induction l with
  | nil =>
    intro acc hacc
    exact hacc
  | cons x xs ih =>
    intro acc hacc
    simp only [List.foldl_cons]
    refine ih _ ?_
    by_cases hmem : acc.any (fun g => g.1 == x.question_type) = true
    · rw [if_pos hmem]
      intro g hg
      rcases List.mem_map.mp hg with ⟨g0, hg0, rfl⟩
      by_cases hk : g0.1 = x.question_type
      · rw [if_pos (by simp [hk])]
        simp
      · rw [if_neg (by simp [hk])]
        exact hacc g0 hg0
    · rw [if_neg hmem]
      intro g hg
      rcases List.mem_append.mp hg with h | h
      · exact hacc g h
      · rcases List.mem_singleton.mp h with rfl
        simp

theorem group_nonempty {dist : List QEntry} {qt : String} {cfgs : List QEntry}
    (hg : (qt, cfgs) ∈ groupByQuestionType dist) : cfgs ≠ [] :=
  groupBy_fold_nonempty dist [] (by simp) (qt, cfgs) hg

theorem count_pos_of_mem_calc {total : ℤ} {qd dd bd : List (String × ℚ)} {q : QEntry}
    (hq : q ∈ calculate_question_distribution total qd dd bd) : 0 < q.count := by
  simp only [calculate_question_distribution, List.mem_map, List.mem_filter] at hq
  rcases hq with ⟨e, ⟨_, hpos⟩, rfl⟩
  simpa using hpos

theorem length_create_question_sequence_aux (bdn : List QEntry) :
    ∀ (acc : List (String × String)),
      (bdn.foldl (fun seq e =>
          seq ++ List.replicate e.count.toNat (e.difficulty, e.blooms_level)) acc).length
        = acc.length + (bdn.map (fun e => e.count.toNat)).sum := by
  induction bdn with
  | nil => intro acc; simp
  | cons e es ih =>
    intro acc
    simp only [List.foldl_cons, ih, List.length_append, List.length_replicate,
      List.map_cons, List.sum_cons]
    omega

theorem length_create_question_sequence (bdn : List QEntry) :
    (create_question_sequence bdn).length = (bdn.map (fun e => e.count.toNat)).sum := by
  have := length_create_question_sequence_aux bdn []
  simpa [create_question_sequence] using this

theorem sum_toNat_counts (cfgs : List QEntry) (h : ∀ e ∈ cfgs, 0 ≤ e.count) :
    ((((cfgs.map (fun e => e.count.toNat)).sum : ℕ)) : ℤ) = totalForType cfgs := by
  induction cfgs with
  | nil => simp [totalForType]
  | cons e es ih =>
    have he := h e (by simp)
    have ih2 := ih (fun x hx => h x (by simp [hx]))
    simp only [List.map_cons, List.sum_cons, totalForType] at ih2 ⊢
    omega

/-- C2 (amended): the sequence a type's parser pairs blocks against is NOT
the global allocation filtered to that type — the generator re-runs the
allocator on per-type marginal distributions (see the counterexample, where
the two sequences differ in order) — but it does have exactly the same
length: the type's total allocated count. -/
theorem per_type_sequence_length_eq (total : ℤ) (qd dd bd : List (String × ℚ))
    (qt : String) (cfgs : List QEntry)
    (hmem : (qt, cfgs) ∈ groupByQuestionType
      (calculate_question_distribution total qd dd bd))
    (hnd2 : ((crossEntries (totalForType cfgs) [(qt, 1)]
        (typeMarginals cfgs).1 (typeMarginals cfgs).2).map (·.key)).Nodup) :
    (perTypeSequence qt cfgs).length = (create_question_sequence cfgs).length := by
  have hpos : ∀ e ∈ cfgs, 0 < e.count := fun e he =>
    count_pos_of_mem_calc (mem_dist_of_mem_group hmem e he)
  have hne : cfgs ≠ [] := group_nonempty hmem
  have htot : 0 < totalForType cfgs := by
    refine List.sum_pos _ ?_ ?_
    · intro x hx
      rcases List.mem_map.mp hx with ⟨e, he, rfl⟩
      exact hpos e he
    · simp [hne]
  have htQpos : (0 : ℚ) < ((totalForType cfgs : ℤ) : ℚ) := by exact_mod_cast htot
  have htQ : ((totalForType cfgs : ℤ) : ℚ) ≠ 0 := htQpos.ne'
  have hv : ∀ e ∈ cfgs, 0 ≤ (e.count : ℚ) / ((totalForType cfgs : ℤ) : ℚ) := by
    intro e he
    have h1 : (0 : ℚ) ≤ (e.count : ℚ) := by exact_mod_cast (hpos e he).le
    exact div_nonneg h1 htQpos.le
  have hm := marginals_fold_props ((totalForType cfgs : ℤ) : ℚ) cfgs [] []
    (by simp) (by simp) (by simp) (by simp) hv
  have hs1 : ((typeMarginals cfgs).1.map (·.2)).sum = 1 := by
    simp only [typeMarginals]
    rw [hm.1]
    simpa using sum_div_eq_one cfgs htQ
  have hs2 : ((typeMarginals cfgs).2.map (·.2)).sum = 1 := by
    simp only [typeMarginals]
    rw [hm.2.1]
    simpa using sum_div_eq_one cfgs htQ
  have hnn1 : ∀ p ∈ (typeMarginals cfgs).1, 0 ≤ p.2 := by
    simp only [typeMarginals]
    exact hm.2.2.1
  have hnn2 : ∀ p ∈ (typeMarginals cfgs).2, 0 ≤ p.2 := by
    simp only [typeMarginals]
    exact hm.2.2.2
  have hsum := sum_counts_eq_total (totalForType cfgs) [(qt, 1)]
    (typeMarginals cfgs).1 (typeMarginals cfgs).2 htot.le (by simp) hs1 hs2
    (by
      intro p hp
      rcases List.mem_singleton.mp hp with rfl
      norm_num)
    hnn1 hnn2 hnd2
  have hbpos : ∀ e ∈ perTypeBreakdown qt cfgs, 0 ≤ e.count := fun e he =>
    (count_pos_of_mem_calc he).le
  have hlhs : ((perTypeSequence qt cfgs).length : ℤ) = totalForType cfgs := by
    rw [perTypeSequence, length_create_question_sequence,
      sum_toNat_counts _ hbpos]
    exact hsum
  have hrhs : ((create_question_sequence cfgs).length : ℤ) = totalForType cfgs := by
    rw [length_create_question_sequence, sum_toNat_counts _ (fun e he => (hpos e he).le)]
  have : ((perTypeSequence qt cfgs).length : ℤ)
      = ((create_question_sequence cfgs).length : ℤ) := by
    rw [hlhs, hrhs]
  exact_mod_cast this

/-- C2 witness: the per-type sequence at a concrete request has the length of
the filtered global allocation. -/
theorem per_type_sequence_length_witness :
    (perTypeSequence "mcq"
        [{ key := "mcq_basic_analyze", question_type := "mcq", difficulty := "basic",
           blooms_level := "analyze", count := 4 },
         { key := "mcq_advanced_remember", question_type := "mcq",
           difficulty := "advanced", blooms_level := "remember", count := 1 },
         { key := "mcq_advanced_analyze", question_type := "mcq",
           difficulty := "advanced", blooms_level := "analyze", count := 11 }]).length
      = (create_question_sequence
        [{ key := "mcq_basic_analyze", question_type := "mcq", difficulty := "basic",
           blooms_level := "analyze", count := 4 },
         { key := "mcq_advanced_remember", question_type := "mcq",
           difficulty := "advanced", blooms_level := "remember", count := 1 },
         { key := "mcq_advanced_analyze", question_type := "mcq",
           difficulty := "advanced", blooms_level := "analyze", count := 11 }]).length :=
  per_type_sequence_length_eq 16 [("mcq", 1)]
    [("basic", (1:ℚ)/4), ("advanced", (3:ℚ)/4)]
    [("remember", (1:ℚ)/20), ("analyze", (19:ℚ)/20)] "mcq" _ (by decide) (by decide)

/-- C2 counterexample: at this request the per-type sequence the mcq parser
uses differs from the global allocation filtered to mcq (the pair
`(advanced, remember)` sits at index 4 of the filtered sequence but at index
15 of the recomputed one). -/
theorem per_type_sequence_counterexample :
    ∃ g ∈ groupByQuestionType (calculate_question_distribution 16 [("mcq", 1)]
        [("basic", (1:ℚ)/4), ("advanced", (3:ℚ)/4)]
        [("remember", (1:ℚ)/20), ("analyze", (19:ℚ)/20)]),
      perTypeSequence g.1 g.2 ≠ create_question_sequence g.2 := by
  decide

/-! ## Lemmas about the Python string primitives -/

theorem pyContains_cons {c : Char} {s pat : PyStr} :
    pyContains (c :: s) pat = (startsWith (c :: s) pat || pyContains s pat) := by
  by_cases h : startsWith (c :: s) pat = true
  · simp [pyContains, findSplit, h]
  · have h2 : startsWith (c :: s) pat = false := Bool.eq_false_iff.mpr h
    simp [pyContains, findSplit, h2]

theorem startsWith_append {q pat v : PyStr} (h : startsWith q pat = true) :
    startsWith (q ++ v) pat = true := by
  induction pat generalizing q with
  | nil => simp [startsWith]
  | cons p ps ih =>
    match q with
    | [] => simp [startsWith] at h
    | c :: cs =>
      simp only [startsWith, Bool.and_eq_true] at h
      simp only [List.cons_append, startsWith, Bool.and_eq_true]
      exact ⟨h.1, ih h.2⟩

theorem pyContains_nil_pat (s : PyStr) : pyContains s [] = true := by
  cases s with
  | nil => simp [pyContains, findSplit, startsWith]
  | cons c cs => simp [pyContains, findSplit, startsWith]

theorem pyContains_append_right {q pat : PyStr} (v : PyStr)
    (h : pyContains q pat = true) : pyContains (q ++ v) pat = true := by
  induction q with
  | nil =>
    match pat with
    | [] => exact pyContains_nil_pat v
    | p :: ps => simp [pyContains, findSplit, startsWith] at h
  | cons c cs ih =>
    rw [pyContains_cons, Bool.or_eq_true] at h
    rw [List.cons_append, pyContains_cons, Bool.or_eq_true]
    rcases h with h | h
    · exact Or.inl (by
        have := startsWith_append (v := v) h
        simpa using this)
    · exact Or.inr (ih h)

theorem pyContains_append_left {s pat : PyStr} (u : PyStr)
    (h : pyContains s pat = true) : pyContains (u ++ s) pat = true := by
  induction u with
  | nil => simpa using h
  | cons c cs ih =>
    rw [List.cons_append, pyContains_cons, Bool.or_eq_true]
    exact Or.inr ih

theorem pyContains_of_ifx {u q v pat : PyStr} (h : pyContains q pat = true) :
    pyContains (u ++ q ++ v) pat = true := by
  have := pyContains_append_left u (pyContains_append_right v h)
  simpa [List.append_assoc] using this

theorem startsWith_spec {pat : PyStr} :
    ∀ {s : PyStr}, startsWith s pat = true → s = pat ++ s.drop pat.length := by
  induction pat with
  | nil => intro s _; simp
  | cons p ps ih =>
    intro s h
    match s with
    | [] => simp [startsWith] at h
    | c :: cs =>
      simp only [startsWith, Bool.and_eq_true, beq_iff_eq] at h
      have := ih h.2
      simp only [List.cons_append, List.length_cons, List.drop_succ_cons]
      rw [h.1, ← this]

theorem findSplit_spec {pat : PyStr} :
    ∀ {s : PyStr} {pr : PyStr × PyStr}, findSplit pat s = some pr →
      s = pr.1 ++ pat ++ pr.2 := by
  intro s
  induction s with
  | nil =>
    intro pr h
    simp only [findSplit] at h
    split at h
    · rename_i hsw
      match pat, hsw with
      | [], _ =>
        simp only [Option.some.injEq] at h
        subst h
        rfl
      | p :: ps, hsw => simp [startsWith] at hsw
    · simp at h
  | cons c rest ih =>
    intro pr h
    simp only [findSplit] at h
    split at h
    · rename_i hsw
      simp only [Option.some.injEq] at h
      subst h
      simpa using startsWith_spec hsw
    · cases hfind : findSplit pat rest with
      | none => simp [hfind] at h
      | some pr2 =>
        simp only [hfind, Option.map_some', Option.some.injEq] at h
        subst h
        have := ih hfind
        simp only [List.cons_append, List.append_assoc] at this ⊢
        rw [← this]

theorem findSplit_post_length {p0 : Char} {ps : PyStr} :
    ∀ {s : PyStr} {pr : PyStr × PyStr}, findSplit (p0 :: ps) s = some pr →
      pr.2.length < s.length := by
  intro s pr h
  have := findSplit_spec h
  rw [this]
  simp only [List.length_append, List.length_cons]
  omega

theorem findSplit_nil (p0 : Char) (ps : PyStr) : findSplit (p0 :: ps) [] = none := by
  simp [findSplit, startsWith]

theorem splitOnSubGo_congr (p0 : Char) (ps : PyStr) :
    ∀ (fuel1 : ℕ) {fuel2 : ℕ} {s : PyStr}, s.length ≤ fuel1 → s.length ≤ fuel2 →
      splitOnSubGo p0 ps fuel1 s = splitOnSubGo p0 ps fuel2 s := by
  intro fuel1
  induction fuel1 with
  | zero =>
    intro fuel2 s h1 h2
    have hs : s = [] := List.length_eq_zero.mp (Nat.le_zero.mp h1)
    subst hs
    match fuel2 with
    | 0 => rfl
    | f + 1 => simp [splitOnSubGo, findSplit_nil]
  | succ f ih =>
    intro fuel2 s h1 h2
    match fuel2 with
    | 0 =>
      have hs : s = [] := List.length_eq_zero.mp (Nat.le_zero.mp h2)
      subst hs
      simp [splitOnSubGo, findSplit_nil]
    | f2 + 1 =>
      simp only [splitOnSubGo]
      cases hfind : findSplit (p0 :: ps) s with
      | none => rfl
      | some pr =>
        have hlt := findSplit_post_length hfind
        have hrec := @ih f2 pr.2 (by omega) (by omega)
        show pr.1 :: splitOnSubGo p0 ps f pr.2 = pr.1 :: splitOnSubGo p0 ps f2 pr.2
        rw [hrec]

theorem splitOnSub_eq (p0 : Char) (ps : PyStr) (s : PyStr) :
    splitOnSub p0 ps s = match findSplit (p0 :: ps) s with
      | none => [s]
      | some pr => pr.1 :: splitOnSub p0 ps pr.2 := by
  match s with
  | [] => simp [splitOnSub, splitOnSubGo, findSplit_nil]
  | c :: rest =>
    show splitOnSubGo p0 ps (rest.length + 1) (c :: rest) = _
    simp only [splitOnSubGo]
    cases hfind : findSplit (p0 :: ps) (c :: rest) with
    | none => rfl
    | some pr =>
      have hlt := findSplit_post_length hfind
      simp only [List.length_cons] at hlt
      have hc := @splitOnSubGo_congr p0 ps rest.length pr.2.length pr.2
        (by omega) (le_refl _)
      show pr.1 :: splitOnSubGo p0 ps rest.length pr.2 = pr.1 :: splitOnSub p0 ps pr.2
      rw [hc]
      rfl

theorem splitOnSub_ne_nil (p0 : Char) (ps : PyStr) (s : PyStr) :
    splitOnSub p0 ps s ≠ [] := by
  rw [splitOnSub_eq]
  split <;> simp

theorem mem_splitOnSub_ifx (p0 : Char) (ps : PyStr) :
    ∀ (n : ℕ) (s : PyStr), s.length ≤ n →
      ∀ piece ∈ splitOnSub p0 ps s, ∃ u v, s = u ++ piece ++ v := by
  intro n
  induction n with
  | zero =>
    intro s hs piece hp
    have hnil : s = [] := List.length_eq_zero.mp (Nat.le_zero.mp hs)
    subst hnil
    rw [splitOnSub_eq] at hp
    split at hp
    · rcases List.mem_singleton.mp hp with rfl
      exact ⟨[], [], rfl⟩
    · rename_i pr hfind
      exact absurd (findSplit_post_length hfind) (by simp)
  | succ m ih =>
    intro s hs piece hp
    rw [splitOnSub_eq] at hp
    split at hp
    · rcases List.mem_singleton.mp hp with rfl
      exact ⟨[], [], by simp⟩
    · rename_i pr hfind
      have hspec := findSplit_spec hfind
      rcases List.mem_cons.mp hp with rfl | hp2
      · exact ⟨[], (p0 :: ps) ++ pr.2, by simpa using hspec⟩
      · have hlen : pr.2.length ≤ m := by
          have := findSplit_post_length hfind
          omega
        rcases ih pr.2 hlen piece hp2 with ⟨u, v, huv⟩
        exact ⟨pr.1 ++ (p0 :: ps) ++ u, v, by
          rw [hspec, huv]
          simp [List.append_assoc]⟩

theorem mem_pySplit_ifx {s sep piece : PyStr} (hp : piece ∈ pySplit s sep) :
    ∃ u v, s = u ++ piece ++ v := by
  match sep with
  | [] =>
    rcases List.mem_singleton.mp hp with rfl
    exact ⟨[], [], by simp⟩
  | p0 :: ps =>
    exact mem_splitOnSub_ifx p0 ps s.length s (le_refl _) piece hp

theorem pyContains_false_of_ifx {s piece pat : PyStr}
    (hs : pyContains s pat = false) (hinf : ∃ u v, s = u ++ piece ++ v) :
    pyContains piece pat = false := by
  rcases hinf with ⟨u, v, rfl⟩
  cases h : pyContains piece pat with
  | false => rfl
  | true => rw [pyContains_of_ifx h] at hs; exact absurd hs (by simp)

theorem pyGet_one_ifx {s sep : PyStr} :
    ∃ u v, s = u ++ pyGet (pySplit s sep) 1 ++ v := by
  by_cases h : 1 < (pySplit s sep).length
  · have hmem : pyGet (pySplit s sep) 1 ∈ pySplit s sep := by
      rw [pyGet, List.getD_eq_getElem?_getD, List.getElem?_eq_getElem h]
      simp only [Option.getD_some]
      exact List.getElem_mem h
    exact mem_pySplit_ifx hmem
  · have : pyGet (pySplit s sep) 1 = [] := by
      rw [pyGet, List.getD_eq_getElem?_getD, List.getElem?_eq_none (by omega)]
      rfl
    rw [this]
    exact ⟨s, [], by simp⟩

theorem pyContains_append_cases {pat : PyStr} :
    ∀ {x p : PyStr}, pyContains (x ++ p) pat = true →
      pyContains p pat = true ∨
      ∃ t, (t.IsSuffix x) ∧ t ≠ [] ∧ startsWith (t ++ p) pat = true := by
  intro x
  induction x with
  | nil => intro p h; exact Or.inl (by simpa using h)
  | cons c cs ih =>
    intro p h
    rw [List.cons_append, pyContains_cons, Bool.or_eq_true] at h
    rcases h with h | h
    · exact Or.inr ⟨c :: cs, List.suffix_refl _, by simp, by simpa using h⟩
    · rcases ih h with h2 | ⟨t, hts, htne, htsw⟩
      · exact Or.inl h2
      · exact Or.inr ⟨t, hts.trans (List.suffix_cons _ _), htne, htsw⟩

/-- `"EXPLANATION:"` cannot appear in `"ANSWER:" ++ p` unless it appears in
`p`: no non-empty suffix of `"ANSWER:"` is a prefix of `"EXPLANATION:"`. -/
theorem expl_not_in_answer_prepend {p : PyStr}
    (hp : pyContains p kwExpl = false) :
    pyContains (kwAnswer ++ p) kwExpl = false := by
  cases h : pyContains (kwAnswer ++ p) kwExpl with
  | false => rfl
  | true =>
    rcases pyContains_append_cases h with h2 | ⟨t, hts, htne, htsw⟩
    · rw [h2] at hp; exact absurd hp (by simp)
    · have htails : t ∈ kwAnswer.tails := (List.mem_tails _ _).mpr hts
      simp only [kwAnswer, List.tails, List.mem_cons, List.mem_singleton] at htails
      rcases htails with rfl | rfl | rfl | rfl | rfl | rfl | rfl | htails
      · simp [startsWith, kwExpl] at htsw
      · simp [startsWith, kwExpl] at htsw
      · simp [startsWith, kwExpl] at htsw
      · simp [startsWith, kwExpl] at htsw
      · simp [startsWith, kwExpl] at htsw
      · simp [startsWith, kwExpl] at htsw
      · simp [startsWith, kwExpl] at htsw
      · rcases htails with rfl | habs
        · exact absurd rfl htne
        · exact absurd habs (by simp)

/-! ## Lemmas about the MCQ parser -/

@[simp] theorem mcqFromBlock_difficulty (b : PyStr) (d bl : String) :
    (mcqFromBlock b d bl).difficulty = d := rfl

@[simp] theorem mcqFromBlock_blooms (b : PyStr) (d bl : String) :
    (mcqFromBlock b d bl).blooms_level = bl := rfl

theorem mcqLoop_length (seq : List (String × String)) :
    ∀ (bs : List PyStr) (qi : ℕ), (mcqLoop seq bs qi).length = bs.length := by
  intro bs
  induction bs with
  | nil => intro qi; rfl
  | cons b bs ih =>
    intro qi
    rw [mcqLoop]
    by_cases h : qi < seq.length
    · rw [if_pos h]
      simp [ih]
    · rw [if_neg h]
      simp [ih]

theorem mcqLoop_getD (seq : List (String × String)) :
    ∀ (bs : List PyStr) (qi i : ℕ), i < bs.length →
      (mcqLoop seq bs qi).getD i emptyMCQ
        = mcqFromBlock (bs.getD i []) (seq.getD (qi + i) ("", "")).1
            (seq.getD (qi + i) ("", "")).2 := by
  intro bs
  induction bs with
  | nil => intro qi i hi; simp at hi
  | cons b bs ih =>
    intro qi i hi
    rw [mcqLoop]
    by_cases h : qi < seq.length
    · rw [if_pos h]
      match i with
      | 0 => simp
      | Nat.succ j =>
        have hj : j < bs.length := by simpa using hi
        have := ih (qi + 1) j hj
        simp only [List.getD_cons_succ]
        rw [this]
        have harith : qi + 1 + j = qi + (j + 1) := by omega
        rw [harith]
    · rw [if_neg h]
      match i with
      | 0 =>
        have hd : seq.getD qi ("", "") = ("", "") :=
          List.getD_eq_default _ _ (by omega)
        simp only [List.getD_cons_zero, Nat.add_zero, hd]
      | Nat.succ j =>
        have hj : j < bs.length := by simpa using hi
        have := ih qi j hj
        simp only [List.getD_cons_succ]
        rw [this]
        have h1 : seq.getD (qi + j) ("", "") = ("", "") :=
          List.getD_eq_default _ _ (by omega)
        have h2 : seq.getD (qi + (j + 1)) ("", "") = ("", "") :=
          List.getD_eq_default _ _ (by omega)
        rw [h1, h2]

/-- The explanation field extraction: if the original block does not contain
`"EXPLANATION:"` the record's explanation is empty (and if it does not
contain `"ANSWER:"` the question and answer are empty). -/
theorem mcqFromBlock_missing_expl {b : PyStr} (d bl : String)
    (h : pyContains b kwExpl = false) : (mcqFromBlock b d bl).explanation = [] := by
  have hb1 : pyContains
      (if pyContains b kwAnswer then kwAnswer ++ pyGet (pySplit b kwAnswer) 1 else b)
      kwExpl = false := by
    by_cases ha : pyContains b kwAnswer = true
    · rw [if_pos ha]
      have hpiece : pyContains (pyGet (pySplit b kwAnswer) 1) kwExpl = false :=
        pyContains_false_of_ifx h pyGet_one_ifx
      exact expl_not_in_answer_prepend hpiece
    · rw [if_neg (by simpa using ha)]
      exact h
  simp [mcqFromBlock, hb1]

theorem mcqFromBlock_missing_answer {b : PyStr} (d bl : String)
    (h : pyContains b kwAnswer = false) :
    (mcqFromBlock b d bl).question = [] ∧ (mcqFromBlock b d bl).answer = [] := by
  constructor
  · simp [mcqFromBlock, h]
  · simp [mcqFromBlock, h]

/-- C3: the MCQ parser emits one record per surviving block; the i-th record
carries the i-th `(difficulty, blooms_level)` pair of the generation sequence
while `i` is below the sequence length, and any record beyond the sequence
length carries empty difficulty and blooms fields — the parse never fails. -/
theorem mcq_parser_pairs_blocks (text : PyStr) (bd : List QEntry) :
    (parse_mcq_response text bd).length = (survivingBlocks text kwQuestion).length ∧
    ∀ i, i < (survivingBlocks text kwQuestion).length →
      (i < (create_question_sequence bd).length →
        (((parse_mcq_response text bd).getD i emptyMCQ).difficulty,
            ((parse_mcq_response text bd).getD i emptyMCQ).blooms_level)
          = (create_question_sequence bd).getD i ("", "")) ∧
      ((create_question_sequence bd).length ≤ i →
        ((parse_mcq_response text bd).getD i emptyMCQ).difficulty = "" ∧
        ((parse_mcq_response text bd).getD i emptyMCQ).blooms_level = "") := by
  constructor
  · exact mcqLoop_length _ _ _
  · intro i hi
    have hrec := mcqLoop_getD (create_question_sequence bd)
      (survivingBlocks text kwQuestion) 0 i hi
    rw [Nat.zero_add] at hrec
    constructor
    · intro hlt
      rw [parse_mcq_response, hrec]
      simp
    · intro hge
      rw [parse_mcq_response, hrec]
      have hd : (create_question_sequence bd).getD i ("", "")
          = ("", "") := List.getD_eq_default _ _ hge
      rw [hd]
      exact ⟨rfl, rfl⟩

/-- C3 witness: end-to-end scenario B — two well-formed blocks and a
two-element sequence produce two records with the exact pairs in order. -/
theorem mcq_parser_pairs_witness :
    (parse_mcq_response
        (("QUESTION: Q1\nANSWER: A1\nEXPLANATION: E1\nQUESTION: Q2\nANSWER: A2\nEXPLANATION: E2").toList)
        [{ key := "mcq_basic_remember", question_type := "mcq", difficulty := "basic",
           blooms_level := "remember", count := 1 },
         { key := "mcq_advanced_analyze", question_type := "mcq", difficulty := "advanced",
           blooms_level := "analyze", count := 1 }]).length
      = (survivingBlocks
          (("QUESTION: Q1\nANSWER: A1\nEXPLANATION: E1\nQUESTION: Q2\nANSWER: A2\nEXPLANATION: E2").toList)
          kwQuestion).length ∧
    (((parse_mcq_response
        (("QUESTION: Q1\nANSWER: A1\nEXPLANATION: E1\nQUESTION: Q2\nANSWER: A2\nEXPLANATION: E2").toList)
        [{ key := "mcq_basic_remember", question_type := "mcq", difficulty := "basic",
           blooms_level := "remember", count := 1 },
         { key := "mcq_advanced_analyze", question_type := "mcq", difficulty := "advanced",
           blooms_level := "analyze", count := 1 }]).getD 0 emptyMCQ).difficulty,
      ((parse_mcq_response
        (("QUESTION: Q1\nANSWER: A1\nEXPLANATION: E1\nQUESTION: Q2\nANSWER: A2\nEXPLANATION: E2").toList)
        [{ key := "mcq_basic_remember", question_type := "mcq", difficulty := "basic",
           blooms_level := "remember", count := 1 },
         { key := "mcq_advanced_analyze", question_type := "mcq", difficulty := "advanced",
           blooms_level := "analyze", count := 1 }]).getD 0 emptyMCQ).blooms_level)
      = ("basic", "remember") ∧
    (((parse_mcq_response
        (("QUESTION: Q1\nANSWER: A1\nEXPLANATION: E1\nQUESTION: Q2\nANSWER: A2\nEXPLANATION: E2").toList)
        [{ key := "mcq_basic_remember", question_type := "mcq", difficulty := "basic",
           blooms_level := "remember", count := 1 },
         { key := "mcq_advanced_analyze", question_type := "mcq", difficulty := "advanced",
           blooms_level := "analyze", count := 1 }]).getD 1 emptyMCQ).difficulty,
      ((parse_mcq_response
        (("QUESTION: Q1\nANSWER: A1\nEXPLANATION: E1\nQUESTION: Q2\nANSWER: A2\nEXPLANATION: E2").toList)
        [{ key := "mcq_basic_remember", question_type := "mcq", difficulty := "basic",
           blooms_level := "remember", count := 1 },
         { key := "mcq_advanced_analyze", question_type := "mcq", difficulty := "advanced",
           blooms_level := "analyze", count := 1 }]).getD 1 emptyMCQ).blooms_level)
      = ("advanced", "analyze") := by
  refine ⟨(mcq_parser_pairs_blocks _ _).1, ?_, ?_⟩
  · have h := ((mcq_parser_pairs_blocks
      (("QUESTION: Q1\nANSWER: A1\nEXPLANATION: E1\nQUESTION: Q2\nANSWER: A2\nEXPLANATION: E2").toList)
      [{ key := "mcq_basic_remember", question_type := "mcq", difficulty := "basic",
         blooms_level := "remember", count := 1 },
       { key := "mcq_advanced_analyze", question_type := "mcq", difficulty := "advanced",
         blooms_level := "analyze", count := 1 }]).2 0 (by decide)).1 (by decide)
    rw [h]
    decide
  · have h := ((mcq_parser_pairs_blocks
      (("QUESTION: Q1\nANSWER: A1\nEXPLANATION: E1\nQUESTION: Q2\nANSWER: A2\nEXPLANATION: E2").toList)
      [{ key := "mcq_basic_remember", question_type := "mcq", difficulty := "basic",
         blooms_level := "remember", count := 1 },
       { key := "mcq_advanced_analyze", question_type := "mcq", difficulty := "advanced",
         blooms_level := "analyze", count := 1 }]).2 1 (by decide)).1 (by decide)
    rw [h]
    decide

/-- C8: a block missing a sub-delimiter yields empty fields instead of an
error: every surviving block still produces a record (the parse of the whole
text cannot fail), a block without `"EXPLANATION:"` gets an empty explanation
field, and a block without `"ANSWER:"` gets empty question and answer
fields. -/
theorem mcq_parser_missing_delimiter (text : PyStr) (bd : List QEntry) :
    (parse_mcq_response text bd).length = (survivingBlocks text kwQuestion).length ∧
    ∀ i, i < (survivingBlocks text kwQuestion).length →
      (pyContains ((survivingBlocks text kwQuestion).getD i []) kwExpl = false →
        ((parse_mcq_response text bd).getD i emptyMCQ).explanation = []) ∧
      (pyContains ((survivingBlocks text kwQuestion).getD i []) kwAnswer = false →
        ((parse_mcq_response text bd).getD i emptyMCQ).question = [] ∧
        ((parse_mcq_response text bd).getD i emptyMCQ).answer = []) := by
  refine ⟨mcqLoop_length _ _ _, ?_⟩
  intro i hi
  have hrec := mcqLoop_getD (create_question_sequence bd)
    (survivingBlocks text kwQuestion) 0 i hi
  rw [Nat.zero_add] at hrec
  constructor
  · intro hmiss
    rw [parse_mcq_response, hrec]
    exact mcqFromBlock_missing_expl _ _ hmiss
  · intro hmiss
    rw [parse_mcq_response, hrec]
    exact mcqFromBlock_missing_answer _ _ hmiss

/-- C8 witness: a block whose `"EXPLANATION:"` delimiter is missing still
parses, with an empty explanation field. -/
theorem mcq_parser_missing_delimiter_witness :
    (parse_mcq_response (("QUESTION: Q1\nANSWER: A1").toList)
        [{ key := "mcq_basic_remember", question_type := "mcq", difficulty := "basic",
           blooms_level := "remember", count := 1 }]).length
      = (survivingBlocks (("QUESTION: Q1\nANSWER: A1").toList) kwQuestion).length ∧
    ((parse_mcq_response (("QUESTION: Q1\nANSWER: A1").toList)
        [{ key := "mcq_basic_remember", question_type := "mcq", difficulty := "basic",
           blooms_level := "remember", count := 1 }]).getD 0 emptyMCQ).explanation
      = [] :=
  ⟨(mcq_parser_missing_delimiter (("QUESTION: Q1\nANSWER: A1").toList)
      [{ key := "mcq_basic_remember", question_type := "mcq", difficulty := "basic",
         blooms_level := "remember", count := 1 }]).1,
   (((mcq_parser_missing_delimiter (("QUESTION: Q1\nANSWER: A1").toList)
      [{ key := "mcq_basic_remember", question_type := "mcq", difficulty := "basic",
         blooms_level := "remember", count := 1 }]).2 0 (by decide)).1 (by decide))⟩

/-! ## Lemmas about the fill-in-blank answer lines -/

theorem processAnswerLines_aux (answerLines : List PyStr) :
    ∀ (acc : List PyStr),
      answerLines.foldl
        (fun acc rawLine =>
          match trimL rawLine with
          | [] => acc
          | c :: cs =>
            if c.isDigit && pyContains (c :: cs) dotSpace then
              acc ++ [trimL (afterFirst (c :: cs) dotSpace)]
            else acc ++ [c :: cs])
        acc
      = acc ++ ((answerLines.map trimL).filter (fun t => !t.isEmpty)).map
          (fun t =>
            match t with
            | [] => t
            | c :: cs =>
              if c.isDigit && pyContains (c :: cs) dotSpace then
                trimL (afterFirst (c :: cs) dotSpace)
              else c :: cs) := by
  induction answerLines with
  | nil => intro acc; simp
  | cons l ls ih =>
    intro acc
    simp only [List.foldl_cons, List.map_cons]
    rw [ih]
    cases htrim : trimL l with
    | nil =>
      rw [List.filter_cons_of_neg (by simp [htrim])]
    | cons c cs =>
      rw [List.filter_cons_of_pos (by simp [htrim])]
      by_cases hc : (c.isDigit && pyContains (c :: cs) dotSpace) = true
      · simp [htrim, hc, List.append_assoc]
        rw [if_pos (show _ ∧ _ by simpa using hc)]
      · simp [htrim, hc, List.append_assoc]
        rw [if_neg (fun h => hc (by simp [h.1, h.2]))]

/-- C9 (amended): the fill-in-blank answer lines are processed as follows —
each line is stripped; empty lines are dropped; a line whose FIRST character
is a digit and which contains `". "` ANYWHERE is replaced by the text after
the FIRST `". "` occurrence (stripped); every other non-empty line is kept
verbatim.  (The original claim's "leading `<digits>. ` pattern" is wrong:
see the counterexample, a line can start with a digit without matching the
leading pattern and still be cut at its first `". "`.) -/
theorem fib_answer_line_processing (answerLines : List PyStr) :
    processAnswerLines answerLines
      = ((answerLines.map trimL).filter (fun t => !t.isEmpty)).map
          (fun t =>
            match t with
            | [] => t
            | c :: cs =>
              if c.isDigit && pyContains (c :: cs) dotSpace then
                trimL (afterFirst (c :: cs) dotSpace)
              else c :: cs) := by
  have := processAnswerLines_aux answerLines []
  simpa [processAnswerLines] using this

/-- C9 counterexample: the line `"3 out of 4. yes"` does not match a leading
`<digits>. ` pattern, so per the claim it should be appended verbatim; the
fill-in-blank parser instead cuts it at the first `". "` and stores
`"yes"`. -/
theorem fib_answer_line_counterexample :
    specLeadingNumbered (("3 out of 4. yes").toList) = false ∧
    processAnswerLines [("3 out of 4. yes").toList] = [("yes").toList] ∧
    [("yes").toList] ≠ [("3 out of 4. yes").toList] := by
  refine ⟨by decide, ?_, by decide⟩
  decide

/-! ## C4: pipeline failures become result values -/

/-- C4: every failure inside a single question-type pipeline is caught at the
pipeline boundary and returned as a `PipelineResult` whose `error` field is
set (with `file_name` and `question_data` cleared); in particular a parse
that yields zero valid records raises `ValueError("No valid MCQs could be
parsed from LLM response")` inside the body, so it surfaces as such an error
value rather than as a soft empty result — nothing propagates as an uncaught
exception into the orchestrator's fan-out. -/
theorem pipeline_failure_is_value (completion : Except PyStr PyStr)
    (question_type : String) (configs : List QEntry)
    (chapter_content chapter_name content_id : PyStr) (lo : LearnObj) :
    (∀ e, pipelineBody completion question_type chapter_content chapter_name
        content_id lo (totalForType configs) (typeMarginals configs).1
        (typeMarginals configs).2 = .error e →
      generateSingleQuestionTypeSync completion question_type configs
          chapter_content chapter_name content_id lo =
        { question_type := question_type, file_name := none
          question_data := none, error := some e }) ∧
    (∀ text, completion = .ok text → chapter_content.isEmpty = false →
      question_type = "mcq" →
      parse_mcq_response text
          (calculate_question_distribution (totalForType configs) [("mcq", 1)]
            (typeMarginals configs).1 (typeMarginals configs).2) = [] →
      generateSingleQuestionTypeSync completion question_type configs
          chapter_content chapter_name content_id lo =
        { question_type := question_type, file_name := none
          question_data := none
          error := some (("No valid MCQs could be parsed from LLM response").toList) }) := by
  constructor
  · intro e h
    simp [generateSingleQuestionTypeSync, h]
  · intro text hcomp hcc hqt hparse
    subst hqt
    subst hcomp
    simp [generateSingleQuestionTypeSync, pipelineBody, generate_mcqs, hcc, hparse,
      Except.map]

/-- C4 witness: a failed completion call surfaces as an error value, and an
unparseable (empty) completion text surfaces as the zero-parse error value. -/
theorem pipeline_failure_is_value_witness :
    generateSingleQuestionTypeSync (.error (("boom").toList)) "mcq"
        [⟨"mcq_basic_remember", "mcq", "basic", "remember", 1⟩]
        (("C").toList) (("ch").toList) (("book").toList) .noObj =
      { question_type := "mcq", file_name := none, question_data := none
        error := some (("boom").toList) } ∧
    generateSingleQuestionTypeSync (.ok []) "mcq"
        [⟨"mcq_basic_remember", "mcq", "basic", "remember", 1⟩]
        (("C").toList) (("ch").toList) (("book").toList) .noObj =
      { question_type := "mcq", file_name := none, question_data := none
        error := some (("No valid MCQs could be parsed from LLM response").toList) } :=
  ⟨(pipeline_failure_is_value (.error (("boom").toList)) "mcq"
      [⟨"mcq_basic_remember", "mcq", "basic", "remember", 1⟩]
      (("C").toList) (("ch").toList) (("book").toList) .noObj).1
    (("boom").toList) rfl,
   (pipeline_failure_is_value (.ok []) "mcq"
      [⟨"mcq_basic_remember", "mcq", "basic", "remember", 1⟩]
      (("C").toList) (("ch").toList) (("book").toList) .noObj).2
    [] rfl (by decide) rfl rfl⟩

/-! ## C5: the orchestrator's error response -/

theorem foldl_processStep_error (l : List PipelineResult) (e : PyStr) :
    l.foldl processStep (.error e) = .error e := by
  induction l with
  | nil => rfl
  | cons r rs ih => simpa [processStep] using ih

theorem processResults_first_error (results : List PipelineResult) :
    ∀ (files : List PyStr) (data : List (String × PipelineData)) (qt : String)
      (e : PyStr), firstError results = some (qt, e) →
      results.foldl processStep (.ok (files, data)) = .error (errorInMsg qt e) := by
  induction results with
  | nil => intro f d qt e h; simp [firstError] at h
  | cons r rs ih =>
    intro f d qt e h
    cases herr : r.error with
    | some e0 =>
      have hfe : firstError (r :: rs) = some (r.question_type, e0) := by
        simp [firstError, herr]
      rw [hfe] at h
      obtain ⟨hq, he⟩ := Prod.mk.injEq .. ▸ Option.some.inj h
      subst hq
      subst he
      rw [List.foldl_cons, show processStep (.ok (f, d)) r
          = .error (errorInMsg r.question_type e0) by simp [processStep, herr]]
      exact foldl_processStep_error rs _
    | none =>
      have hfe : firstError rs = some (qt, e) := by
        simpa [firstError, herr] using h
      rw [List.foldl_cons, show processStep (.ok (f, d)) r
          = .ok (f ++ (match r.file_name with | some fn => [fn] | none => []),
                 d ++ (match r.question_data with
                       | some dd => [(r.question_type, dd)]
                       | none => [])) by simp [processStep, herr]]
      exact ih _ _ qt e hfe

/-- C5: whenever some pipeline result carries an error, `generate_questions`
returns a well-formed response object of the same shape as a success
response, with status `"error"`, a message built from the first error (which
embeds `"Error in {question_type}: ..."`, naming the failing type), empty
`data`, and empty `files_generated`. -/
theorem orchestrator_error_response (req : RequestModel) (chapter_content : PyStr)
    (results : List PipelineResult) (source_id timing : PyStr) (qt : String)
    (e : PyStr) (hcc : chapter_content.isEmpty = false)
    (hfe : firstError results = some (qt, e)) :
    generate_questions req chapter_content results source_id timing =
      { status := "error"
        message := RESPONSE_ERROR_TEMPLATE (errorInMsg qt e)
        session_id := req.session_id
        contentId := req.contentId
        chapter_name := req.chapter_name
        learning_objectives := req.learning_objectives
        total_questions := req.total_questions
        question_type_distribution := req.question_type_distribution
        difficulty_distribution := req.difficulty_distribution
        blooms_taxonomy_distribution := req.blooms_taxonomy_distribution
        files_generated := []
        data := [] } := by
  have hpr : processResults results = .error (errorInMsg qt e) :=
    processResults_first_error results [] [] qt e hfe
  simp [generate_questions, hcc, processResults] at hpr ⊢
  simp [hpr]

/-- C5 witness: a concrete request whose only pipeline result failed yields
the error response naming the failing type, with empty data and files. -/
theorem orchestrator_error_response_witness :
    generate_questions
        { contentId := ("book").toList, chapter_name := ("ch1").toList
          learning_objectives := .noObj, total_questions := 3
          question_type_distribution := [("mcq", 1)]
          difficulty_distribution := [("basic", 1)]
          blooms_taxonomy_distribution := [("remember", 1)]
          session_id := ("s1").toList }
        (("content").toList)
        [{ question_type := "mcq", file_name := none, question_data := none
           error := some (("boom").toList) }]
        (("src").toList) (("t").toList) =
      { status := "error"
        message := RESPONSE_ERROR_TEMPLATE (errorInMsg "mcq" (("boom").toList))
        session_id := ("s1").toList
        contentId := ("book").toList
        chapter_name := ("ch1").toList
        learning_objectives := .noObj
        total_questions := 3
        question_type_distribution := [("mcq", 1)]
        difficulty_distribution := [("basic", 1)]
        blooms_taxonomy_distribution := [("remember", 1)]
        files_generated := []
        data := [] } :=
  orchestrator_error_response
    { contentId := ("book").toList, chapter_name := ("ch1").toList
      learning_objectives := .noObj, total_questions := 3
      question_type_distribution := [("mcq", 1)]
      difficulty_distribution := [("basic", 1)]
      blooms_taxonomy_distribution := [("remember", 1)]
      session_id := ("s1").toList }
    (("content").toList)
    [{ question_type := "mcq", file_name := none, question_data := none
       error := some (("boom").toList) }]
    (("src").toList) (("t").toList) "mcq" (("boom").toList) (by decide) rfl


end QGenSpec

